import Mathlib

/-!
# Verification of the crypto price tracker core (crypto_price_tracker.py)

Shallow embedding of the repository's core pipeline:
`normalize_headers`, `validate_schema`, `enrich`, `summarize`.

Modelling conventions:
* A pandas `DataFrame` is a `DF`: a row count plus a list of named columns,
  each column a list of cells.  Column order and duplicate names are
  representable, as in pandas.
* A cell (`Cell`) is a string, a (rational) number, or the missing value
  (`na`, standing for `NaN` / `pd.NA` / `None`).  Machine floats are
  idealized as `ℚ`; `NaN` is modelled explicitly as `Cell.na` and never as a
  number, so `NaN`-propagation of pandas arithmetic is explicit.
* Python's `round(x, 2)` (round-half-to-even) is `round2`.
* `str.lower` / `str.strip` / the `\s` regex class are modelled over the
  ASCII range, which covers every header and label the program manipulates.
* The live CoinGecko call `get_current_price` is the external collaborator:
  it is a parameter `fetch : String → PriceResult` of `enrich`, and `enrich`
  additionally returns the trace of identifiers it actually fetched, so the
  caching behaviour of the source loop is observable.
-/

namespace Crypto

/- Batteries marks the core rational arithmetic operations irreducible;
restore the default reducibility so that concrete runs of the embedded
pipeline evaluate inside proofs. -/
attribute [local semireducible] Rat.mul Rat.add Rat.sub Rat.inv

/-- A spreadsheet cell: missing (`NaN`/`pd.NA`), a number, or a string. -/
inductive Cell where
  | na : Cell
  | num : ℚ → Cell
  | str : String → Cell
deriving DecidableEq, Repr

/-- Python `round` to an integer: round half to even (banker's rounding). -/
def roundHalfEven (q : ℚ) : ℤ :=
  let f := ⌊q⌋
  if q - f < 1/2 then f
  else if q - f > 1/2 then f + 1
  else if f % 2 = 0 then f else f + 1

/-- Python `round(x, 2)`. -/
def round2 (q : ℚ) : ℚ := (roundHalfEven (q * 100) : ℚ) / 100

/-- Numeric view of a cell (`none` means not a number). -/
def cellNum? : Cell → Option ℚ
  | .num q => some q
  | _ => none

/-- NaN-propagating multiplication, as in pandas float arithmetic. -/
def cellMul (a b : Cell) : Cell :=
  match cellNum? a, cellNum? b with
  | some x, some y => .num (x * y)
  | _, _ => .na

/-- NaN-propagating addition, as in pandas float arithmetic. -/
def cellAdd (a b : Cell) : Cell :=
  match cellNum? a, cellNum? b with
  | some x, some y => .num (x + y)
  | _, _ => .na

/-- NaN-propagating subtraction, as in pandas float arithmetic. -/
def cellSub (a b : Cell) : Cell :=
  match cellNum? a, cellNum? b with
  | some x, some y => .num (x - y)
  | _, _ => .na

/-- NaN-propagating division (division by zero yields NaN-like missing). -/
def cellDiv (a b : Cell) : Cell :=
  match cellNum? a, cellNum? b with
  | some x, some y => if y = 0 then .na else .num (x / y)
  | _, _ => .na

/-- `round(·, 2)` lifted to cells, NaN-propagating. -/
def round2Cell (c : Cell) : Cell :=
  match cellNum? c with
  | some q => .num (round2 q)
  | none => .na

/-- Parse a decimal literal: optional sign, digits, optional fractional
part, surrounded by optional ASCII whitespace.  Models the fragment of
`pd.to_numeric` string coercion the program can meet. -/
def digitsVal : List Char → Option ℕ
  | [] => none
  | l => l.foldl (fun acc c =>
      match acc with
      | none => none
      | some n => if c.isDigit then some (n * 10 + (c.toNat - 48)) else none)
      (some 0)

/-- ASCII whitespace, modelling the `\s` regex class / `str.strip`. -/
def isWS (c : Char) : Bool :=
  c = ' ' || c = '\t' || c = '\n' || c = '\r' || c = '\x0b' || c = '\x0c'

/-- Strip ASCII whitespace from both ends (Python `str.strip`). -/
def stripWS (l : List Char) : List Char :=
  ((l.dropWhile isWS).reverse.dropWhile isWS).reverse

def parseDec (s : String) : Option ℚ :=
  let l := stripWS s.toList
  let (sign, l) : ℚ × List Char :=
    match l with
    | '-' :: rest => (-1, rest)
    | '+' :: rest => (1, rest)
    | _ => (1, l)
  match l.splitOn '.' with
  | [intPart] =>
      match digitsVal intPart with
      | some n => some (sign * n)
      | none => none
  | [intPart, fracPart] =>
      match digitsVal intPart, digitsVal fracPart with
      | some n, some f => some (sign * (n + (f : ℚ) / (10 ^ fracPart.length)))
      | _, _ => none
  | _ => none

/-- `pd.to_numeric(·, errors="coerce")` on one cell: numbers pass through,
unparseable values become NaN (never an error). -/
def toNumericCell : Cell → Cell
  | .num q => .num q
  | .na => .na
  | .str s => match parseDec s with
    | some q => .num q
    | none => .na

/-- The ASCII upper/lower case table; models Python `str.lower` on the
ASCII range (all labels the program handles are ASCII). -/
def UPPER_LOWER : List (Char × Char) :=
  [('A', 'a'), ('B', 'b'), ('C', 'c'), ('D', 'd'), ('E', 'e'), ('F', 'f'),
   ('G', 'g'), ('H', 'h'), ('I', 'i'), ('J', 'j'), ('K', 'k'), ('L', 'l'),
   ('M', 'm'), ('N', 'n'), ('O', 'o'), ('P', 'p'), ('Q', 'q'), ('R', 'r'),
   ('S', 's'), ('T', 't'), ('U', 'u'), ('V', 'v'), ('W', 'w'), ('X', 'x'),
   ('Y', 'y'), ('Z', 'z')]

def lowerChar (c : Char) : Char := (UPPER_LOWER.lookup c).getD c

/-- The zero-width characters removed by `_norm` (U+200B..U+200D). -/
def isZW (c : Char) : Bool := c = '\u200B' || c = '\u200C' || c = '\u200D'

/-- `re.sub(r"[_\-]+", " ", ·)` character map (each `_`/`-` becomes a space;
the regex collapses runs, but a following whitespace collapse makes the
per-character map equivalent). -/
def dashUnd (c : Char) : Char := if c = '_' || c = '-' then ' ' else c

/-- `re.sub(r"\s+", " ", ·)`: replace each maximal whitespace run by one
space.  The boolean argument records whether the previous character was
whitespace. -/
def collapseAux : Bool → List Char → List Char
  | _, [] => []
  | prevWS, c :: cs =>
    if isWS c then
      if prevWS then collapseAux true cs
      else ' ' :: collapseAux true cs
    else c :: collapseAux false cs

def collapseWS (l : List Char) : List Char := collapseAux false l

/-- Core of `_norm` at the character-list level. -/
def normList (l : List Char) : List Char :=
  (stripWS (collapseWS ((l.filter (fun c => !isZW c)).map dashUnd))).map lowerChar

/-- The source's `_norm`: remove zero-width characters, turn `_`/`-` into
spaces, collapse whitespace, strip, lowercase. -/
def normLabel (s : String) : String := (normList s.toList).asString

/-- A pandas DataFrame: a row count and named columns (order matters,
duplicate names representable).  Columns of a well-formed frame have
`nrows` cells; all operations below read cells through `cellAt`, which
yields `na` out of range. -/
structure DF where
  nrows : ℕ
  cols : List (String × List Cell)
deriving DecidableEq, Repr

def cellAt (cs : List Cell) (i : ℕ) : Cell := cs.getD i .na

def DF.colNames (df : DF) : List String := df.cols.map Prod.fst

def DF.hasCol (df : DF) (n : String) : Prop := n ∈ df.colNames

instance (df : DF) (n : String) : Decidable (df.hasCol n) :=
  inferInstanceAs (Decidable (n ∈ df.colNames))

/-- `df[name]`: cells of the first column named `name` ( `[]` if absent; the
source raises there, so theorems restrict to present columns). -/
def DF.getCol (df : DF) (name : String) : List Cell :=
  match df.cols.find? (fun p => p.1 = name) with
  | some p => p.2
  | none => []

/-- `df[name] = cells`: replace every column named `name`, or append a new
column at the end (pandas semantics). -/
def DF.setCol (df : DF) (name : String) (cs : List Cell) : DF :=
  if df.hasCol name then
    ⟨df.nrows, df.cols.map (fun p => if p.1 = name then (p.1, cs) else p)⟩
  else ⟨df.nrows, df.cols ++ [(name, cs)]⟩

/-- `df.at[i, name] = v`. -/
def DF.setCell (df : DF) (i : ℕ) (name : String) (v : Cell) : DF :=
  ⟨df.nrows, df.cols.map (fun p => if p.1 = name then (p.1, p.2.set i v) else p)⟩

/-- `df[name] = df[name].map f` (used for `pd.to_numeric` coercion). -/
def DF.mapCol (df : DF) (name : String) (f : Cell → Cell) : DF :=
  ⟨df.nrows, df.cols.map (fun p => if p.1 = name then (p.1, p.2.map f) else p)⟩

/-- `df.drop(columns=[name])`. -/
def DF.removeCol (df : DF) (name : String) : DF :=
  ⟨df.nrows, df.cols.filter (fun p => p.1 ≠ name)⟩

/-- `df.rename(columns=m)`: simultaneous renaming through the mapping. -/
def renameFn (m : List (String × String)) (n : String) : String :=
  (m.lookup n).getD n

def DF.rename (df : DF) (m : List (String × String)) : DF :=
  ⟨df.nrows, df.cols.map (fun p => (renameFn m p.1, p.2))⟩

/-- The alias table of `normalize_headers`, in source order.  (The Python
synonym collections are `set`s, whose iteration order is unspecified; the
theorems below never depend on which of two simultaneously-present synonyms
is chosen.) -/
def ALIAS_TABLE : List (String × List String) :=
  [("date of purchase", ["date", "purchase date", "date purchased"]),
   ("coin type", ["coin", "asset", "symbol", "ticker"]),
   ("quantity", ["qty", "amount", "units"]),
   ("cost per coin (usd)",
     ["cost per coin", "price", "unit price", "ppercoin", "price usd",
      "costpercoinusd"]),
   ("feesusd", ["fees", "fee", "fee usd", "fees (usd)"]),
   ("exchange", ["exchange", "platform", "broker"]),
   ("txid", ["txid", "tx id", "transaction id", "hash"]),
   ("notes", ["notes", "memo", "comment"]),
   ("totalcostusd", ["total cost usd", "total cost"])]

/-- The canonical working (lowercase) field names. -/
def CANON_KEYS : List String := ALIAS_TABLE.map Prod.fst

/-- Build `rename_map`: for each canonical name not already present, the
first present synonym is renamed to it. -/
def brm : List (String × List String) → List String → List (String × String)
  | [], _ => []
  | (canon, alts) :: rest, present =>
    if canon ∈ present then brm rest present
    else
      match alts.find? (fun a => present.contains a) with
      | some alt => (alt, canon) :: brm rest present
      | none => brm rest present

def REQUIRED_WORKING : List String :=
  ["date of purchase", "coin type", "quantity", "cost per coin (usd)",
   "feesusd", "exchange", "txid", "notes"]

def NUMERIC_WORKING : List String :=
  ["quantity", "cost per coin (usd)", "feesusd"]

/-- Step 5 display renaming of `normalize_headers`. -/
def DISPLAY_MAP : List (String × String) :=
  [("date of purchase", "Date of Purchase"),
   ("coin type", "Coin Type"),
   ("quantity", "Quantity"),
   ("cost per coin (usd)", "Cost per Coin (USD)"),
   ("feesusd", "FeesUSD"),
   ("exchange", "Exchange"),
   ("txid", "TxID"),
   ("notes", "Notes"),
   ("totalcostusd", "TotalCostUSD")]

/-- The display names of the nine working fields. -/
def DISPLAY_NAMES : List String := DISPLAY_MAP.map Prod.snd

/-- Step 1: normalize every column label for matching. -/
def nhStep1 (df : DF) : DF :=
  ⟨df.nrows, df.cols.map (fun p => (normLabel p.1, p.2))⟩

/-- Step 2: rename known aliases to canonical working names. -/
def nhStep2 (df : DF) : DF := df.rename (brm ALIAS_TABLE df.colNames)

/-- Step 3: create each missing required working column, filled with NaN. -/
def nhStep3 (df : DF) : DF :=
  REQUIRED_WORKING.foldl
    (fun d c => if d.hasCol c then d else d.setCol c (List.replicate d.nrows .na))
    df

/-- Step 4 (first half): numeric coercion of the three numeric columns. -/
def nhStep4a (df : DF) : DF :=
  NUMERIC_WORKING.foldl (fun d c => d.mapCol c toNumericCell) df

/-- Step 4 (second half): compute `totalcostusd` when absent, as
`quantity * cost-per-coin + fees` with pandas NaN propagation (note: the
source applies no `fillna(0)` here). -/
def nhStep4b (df : DF) : DF :=
  if df.hasCol "totalcostusd" then df
  else
    df.setCol "totalcostusd"
      ((List.range df.nrows).map (fun i =>
        cellAdd
          (cellMul (cellAt (df.getCol "quantity") i)
            (cellAt (df.getCol "cost per coin (usd)") i))
          (cellAt (df.getCol "feesusd") i)))

/-- Step 5: rename working names to display names. -/
def nhStep5 (df : DF) : DF := df.rename DISPLAY_MAP

/-- The source's `normalize_headers`. -/
def normalize_headers (df : DF) : DF :=
  nhStep5 (nhStep4b (nhStep4a (nhStep3 (nhStep2 (nhStep1 df)))))

def REQUIRED_COLS_DISPLAY : List String :=
  ["Date of Purchase", "Coin Type", "Quantity", "Cost per Coin (USD)"]

/-- `", ".join(l)` of Python. -/
def joinComma : List String → String
  | [] => ""
  | [x] => x
  | x :: y :: xs => x ++ ", " ++ joinComma (y :: xs)

/-- The source's `validate_schema`. -/
def validate_schema (df : DF) : Bool × Option String :=
  let missing := REQUIRED_COLS_DISPLAY.filter (fun c => decide (¬ df.hasCol c))
  if missing.isEmpty then (true, none)
  else (false, some ("Missing required columns: " ++ joinComma missing))

/-- Result of the external price lookup (`get_current_price`). -/
structure PriceResult where
  usd : Option ℚ
  error : Option String := none
deriving DecidableEq, Repr

/-- The static `COIN_NAME_TO_ID` table. -/
def COIN_NAME_TO_ID : List (String × String) :=
  [("bitcoin", "bitcoin"), ("btc", "bitcoin"),
   ("ethereum", "ethereum"), ("eth", "ethereum"),
   ("cardano", "cardano"), ("ada", "cardano"),
   ("solana", "solana"), ("sol", "solana"),
   ("dogecoin", "dogecoin"), ("doge", "dogecoin"),
   ("hedera", "hedera-hashgraph"), ("hbar", "hedera-hashgraph"),
   ("ripple", "ripple"), ("xrp", "ripple"),
   ("stellar", "stellar"), ("xlm", "stellar")]

/-- `astype(str)` on one cell.  String cells pass through and `NaN` becomes
the string `nan`, as in numpy.  Float repr of a number is modelled only for
integral values (coin labels are strings in every supported input; no
theorem below depends on the numeric branch). -/
def pyStr : Cell → String
  | .str s => s
  | .na => "nan"
  | .num q => if q.den = 1 then toString q.num ++ ".0" else toString q

/-- `out["Coin Type"].astype(str).str.strip().str.lower()` on one cell. -/
def coinKey (c : Cell) : String :=
  ((stripWS (pyStr c).toList).map lowerChar).asString

/-- Enrichment loop state: the frame being updated, the per-run price
cache, and the trace of identifiers passed to the live fetch (the trace is
instrumentation making the number of collaborator calls observable). -/
def enrichStep (fetch : String → PriceResult)
    (st : DF × List (String × PriceResult) × List String) (i : ℕ) :
    DF × List (String × PriceResult) × List String :=
  let out := st.1
  let key := pyStr (cellAt (out.getCol "Coin Key") i)
  match COIN_NAME_TO_ID.lookup key with
  | none => st
  | some coin_id =>
    let fetched : PriceResult × List (String × PriceResult) × List String :=
      match st.2.1.lookup coin_id with
      | some pr => (pr, st.2.1, st.2.2)
      | none =>
        let pr := fetch coin_id
        (pr, if pr.usd.isSome then (coin_id, pr) :: st.2.1 else st.2.1,
          st.2.2 ++ [coin_id])
    let pr := fetched.1
    let cache := fetched.2.1
    let trace := fetched.2.2
    match pr.usd with
    | none => (out, cache, trace)
    | some price =>
      let cb := cellNum? (toNumericCell (cellAt (out.getCol "Cost Basis (USD)") i))
      match cb with
      | none => (out.setCell i "Unrealized P/L (%)" .na, cache, trace)
      | some cbq =>
        if cbq = 0 then (out.setCell i "Unrealized P/L (%)" .na, cache, trace)
        else
          let qty := cellAt (out.getCol "Quantity") i
          let position := round2Cell (cellMul (.num price) qty)
          let pl := round2Cell (cellSub position (.num cbq))
          let plpct :=
            if cbq ≠ 0 then round2Cell (cellMul (cellDiv pl (.num cbq)) (.num 100))
            else Cell.na
          let out := out.setCell i "Current Price (USD)" (.num price)
          let out := out.setCell i "Position Value (USD)" position
          let out := out.setCell i "Unrealized P/L (USD)" pl
          let out := out.setCell i "Unrealized P/L (%)" plpct
          (out, cache, trace)

/-- The pre-loop part of `enrich`: derive the Coin Key column, initialize
the derived columns, and compute `Cost Basis (USD)` with fees coerced and
`fillna(0)`-ed. -/
def enrichInit (df : DF) : DF :=
  let out := df.setCol "Coin Key"
    ((List.range df.nrows).map (fun i =>
      Cell.str (coinKey (cellAt (df.getCol "Coin Type") i))))
  let out := out.setCol "Current Price (USD)" (List.replicate df.nrows .na)
  let out := out.setCol "Position Value (USD)" (List.replicate df.nrows .na)
  let out := out.setCol "Cost Basis (USD)"
    ((List.range df.nrows).map (fun i =>
      round2Cell
        (cellAdd
          (cellMul (cellAt (out.getCol "Quantity") i)
            (cellAt (out.getCol "Cost per Coin (USD)") i))
          (Cell.num
            ((cellNum? (toNumericCell (cellAt (out.getCol "FeesUSD") i))).getD 0)))))
  let out := out.setCol "Unrealized P/L (USD)" (List.replicate df.nrows .na)
  out.setCol "Unrealized P/L (%)" (List.replicate df.nrows .na)

/-- The record loop of `enrich`: fold the per-row step over all rows,
starting from the initialized frame, an empty cache and an empty trace. -/
def enrichLoop (fetch : String → PriceResult) (df : DF) :
    DF × List (String × PriceResult) × List String :=
  (List.range df.nrows).foldl (enrichStep fetch) (enrichInit df, [], [])

/-- The source's `enrich`.  Returns the enriched frame together with the
trace of identifiers sent to the live price fetch. -/
def enrich (df : DF) (offline : Bool) (fetch : String → PriceResult) :
    DF × List String :=
  if offline then ((enrichInit df).removeCol "Coin Key", [])
  else ((enrichLoop fetch df).1.removeCol "Coin Key", (enrichLoop fetch df).2.2)

/-- Lexicographic order on character lists by code point — the Python
string order used when pandas sorts the group keys. -/
def listLexLe : List Char → List Char → Bool
  | [], _ => true
  | _ :: _, [] => false
  | a :: as, b :: bs =>
    if a.toNat < b.toNat then true
    else if b.toNat < a.toNat then false
    else listLexLe as bs

/-- Ascending comparison used by the pandas `groupby` key sort.  String
keys compare lexicographically; a missing key sorts last (`dropna=False`).
Mixed-type keys make the source raise; the numeric/mixed branches here are
arbitrary and no theorem depends on them. -/
def cellLeB : Cell → Cell → Bool
  | .str a, .str b => listLexLe a.toList b.toList
  | .num a, .num b => a ≤ b
  | .na, .na => true
  | .na, _ => false
  | _, .na => true
  | .num _, .str _ => true
  | .str _, .num _ => false

/-- Insertion sort of group keys (pandas `groupby(..., sort=True)`). -/
def insertCell (a : Cell) : List Cell → List Cell
  | [] => [a]
  | b :: bs => if cellLeB a b then a :: b :: bs else b :: insertCell a bs

def sortCells : List Cell → List Cell
  | [] => []
  | a :: as' => insertCell a (sortCells as')

/-- Distinct values in order of first appearance. -/
def dedupCells (l : List Cell) : List Cell :=
  l.foldl (fun acc c => if c ∈ acc then acc else acc ++ [c]) []

/-- Sum of one aggregation column over the rows of one group: pandas
`sum` with NaN skipped, i.e. null counted as zero. -/
def groupSum (coin cs : List Cell) (n : ℕ) (k : Cell) : ℚ :=
  (List.range n).foldl
    (fun acc i =>
      if cellAt coin i = k then acc + ((cellNum? (cellAt cs i)).getD 0) else acc)
    0

/-- The numeric columns `summarize` coerces before grouping. -/
def NUMERIC_SUMMARY : List String :=
  ["Quantity", "Cost per Coin (USD)", "Current Price (USD)",
   "Position Value (USD)", "Cost Basis (USD)", "Unrealized P/L (USD)"]

/-- The numeric coercion pass at the top of `summarize`. -/
def sumCoerce (df : DF) : DF :=
  NUMERIC_SUMMARY.foldl
    (fun d c => if d.hasCol c then d.mapCol c toNumericCell else d) df

/-- The raw `Coin Type` cell of every row (the groupby key column). -/
def coinCells (df : DF) : List Cell :=
  (List.range (sumCoerce df).nrows).map
    (fun i => cellAt ((sumCoerce df).getCol "Coin Type") i)

/-- The group keys: distinct raw `Coin Type` values, sorted ascending
(pandas `groupby` default `sort=True`). -/
def sumKeys (df : DF) : List Cell := sortCells (dedupCells (coinCells df))

/-- Per-group sums of one aggregation column, in key order. -/
def groupCol (df : DF) (col : String) : List ℚ :=
  (sumKeys df).map
    (fun k => groupSum (coinCells df) ((sumCoerce df).getCol col)
      (sumCoerce df).nrows k)

/-- The source's `summarize`: coerce numeric columns, group by the raw
`Coin Type` value (keys sorted ascending, pandas default), sum the four
aggregation columns per group, and append the `TOTAL` row. -/
def summarize (df : DF) : DF :=
  ⟨(sumKeys df).length + 1,
   [("Coin Type", sumKeys df ++ [.str "TOTAL"]),
    ("Quantity",
      (groupCol df "Quantity").map .num ++ [.num (groupCol df "Quantity").sum]),
    ("Cost_Basis_USD",
      (groupCol df "Cost Basis (USD)").map .num
        ++ [.num (groupCol df "Cost Basis (USD)").sum]),
    ("Position_Value_USD",
      (groupCol df "Position Value (USD)").map .num
        ++ [.num (groupCol df "Position Value (USD)").sum]),
    ("Unrealized_PL_USD",
      (groupCol df "Unrealized P/L (USD)").map .num
        ++ [.num (groupCol df "Unrealized P/L (USD)").sum])]⟩

/-- A string all of whose characters are fixed by `lowerChar` (i.e. contains
no ASCII uppercase).  Every `normLabel` output and every working name is of
this shape; no display name is. -/
def LFixed (s : String) : Prop := ∀ c ∈ s.toList, lowerChar c = c

instance (s : String) : Decidable (LFixed s) :=
  inferInstanceAs (Decidable (∀ c ∈ s.toList, lowerChar c = c))

/-- A normalized label that is one of the nine canonical working names. -/
def isCanon (n : String) : Prop := n ∈ CANON_KEYS

instance (n : String) : Decidable (isCanon n) :=
  inferInstanceAs (Decidable (n ∈ CANON_KEYS))

/-- A normalized label occurring in some synonym set of the alias table. -/
def isAliasAlt (n : String) : Prop := ∃ q ∈ ALIAS_TABLE, n ∈ q.2

instance (n : String) : Decidable (isAliasAlt n) :=
  inferInstanceAs (Decidable (∃ q ∈ ALIAS_TABLE, n ∈ q.2))

/-- The columns `enrich` reads; absent ones make the source raise
`KeyError`, so theorems about `enrich` assume their presence. -/
def EnrichInput (df : DF) : Prop :=
  df.hasCol "Coin Type" ∧ df.hasCol "Quantity" ∧
    df.hasCol "Cost per Coin (USD)" ∧ df.hasCol "FeesUSD"

instance (df : DF) : Decidable (EnrichInput df) :=
  inferInstanceAs (Decidable (_ ∧ _ ∧ _ ∧ _))

/-- A cost-basis cell that is missing, non-numeric, or zero — the guard
condition of the enrichment loop (`pd.isna(cb) or cb == 0`). -/
def BadCB (c : Cell) : Prop :=
  cellNum? (toNumericCell c) = none ∨ cellNum? (toNumericCell c) = some 0

instance (c : Cell) : Decidable (BadCB c) :=
  inferInstanceAs (Decidable (_ ∨ _))

/-- All four price-derived cells of row `i` are null. -/
def FourNa (d : DF) (i : ℕ) : Prop :=
  cellAt (d.getCol "Current Price (USD)") i = Cell.na
  ∧ cellAt (d.getCol "Position Value (USD)") i = Cell.na
  ∧ cellAt (d.getCol "Unrealized P/L (USD)") i = Cell.na
  ∧ cellAt (d.getCol "Unrealized P/L (%)") i = Cell.na

instance (d : DF) (i : ℕ) : Decidable (FourNa d i) :=
  inferInstanceAs (Decidable (_ ∧ _ ∧ _ ∧ _))

/-- String-cell test (used to keep `summarize` theorems inside the domain
where the pandas key sort is defined). -/
def isStrB : Cell → Bool
  | .str _ => true
  | _ => false

/-- Sum of the numeric values of the first `n` cells, null counted as 0. -/
def sumBelow (cs : List Cell) (n : ℕ) : ℚ :=
  (List.range n).foldl (fun a j => a + ((cellNum? (cellAt cs j)).getD 0)) 0

/-- A fetch collaborator whose every lookup fails (network down). -/
def failFetch : String → PriceResult := fun _ => ⟨none, some "down"⟩

/-- A fetch collaborator that always returns price 5. -/
def okFetch : String → PriceResult := fun _ => ⟨some 5, none⟩

/-- One raw column whose label matches no canonical name and no alias. -/
def cexC1df : DF := ⟨1, [("Unknown Col", [.str "x"])]⟩

/-- Two records of the same coin, full enricher input. -/
def cexC3df : DF :=
  ⟨2, [("Coin Type", [.str "BTC", .str "BTC"]),
       ("Quantity", [.num 1, .num 1]),
       ("Cost per Coin (USD)", [.num 10, .num 10]),
       ("FeesUSD", [.na, .na])]⟩

/-- Two enriched records whose first-seen coin order (XRP before BTC) is
not the sorted order. -/
def cexC4df : DF :=
  ⟨2, [("Coin Type", [.str "XRP", .str "BTC"]),
       ("Quantity", [.num 100, .num 1]),
       ("Cost per Coin (USD)", [.num (1/2), .num 30000]),
       ("Current Price (USD)", [.na, .na]),
       ("Position Value (USD)", [.na, .na]),
       ("Cost Basis (USD)", [.num 50, .num 30000]),
       ("Unrealized P/L (USD)", [.na, .na])]⟩

/-- Numeric quantity and cost per coin, no fees column, no total-cost
column. -/
def cexC5df : DF :=
  ⟨1, [("quantity", [.num 2]), ("cost per coin (usd)", [.num 10])]⟩

/-- A frame missing three of the four required display columns. -/
def witC2df : DF := ⟨1, [("Date of Purchase", [.na])]⟩

/-- A record with cost basis 0 (quantity 0) for a recognized coin. -/
def witC6df : DF :=
  ⟨1, [("Coin Type", [.str "BTC"]),
       ("Quantity", [.num 0]),
       ("Cost per Coin (USD)", [.num 10]),
       ("FeesUSD", [.na])]⟩

/-- The spec's offline scenario: quantity 2, cost per coin 10000. -/
def witC7df : DF :=
  ⟨1, [("Coin Type", [.str "BTC"]),
       ("Quantity", [.num 2]),
       ("Cost per Coin (USD)", [.num 10000]),
       ("FeesUSD", [.na])]⟩

/-- A frame whose headers are exactly the canonical display names. -/
def witC8df : DF :=
  ⟨1, [("Date of Purchase", [.str "2025-01-01"]),
       ("Coin Type", [.str "BTC"]),
       ("Quantity", [.num 1]),
       ("Cost per Coin (USD)", [.num 30000]),
       ("FeesUSD", [.num 5]),
       ("Exchange", [.str "X"]),
       ("TxID", [.str "t"]),
       ("Notes", [.na]),
       ("TotalCostUSD", [.num 30005])]⟩

/-!
## Lemmas about the frame operations
-/

theorem DF.nrows_setCol (df : DF) (n : String) (cs : List Cell) :
    (df.setCol n cs).nrows = df.nrows := by
  unfold DF.setCol; split <;> rfl

theorem DF.nrows_setCell (df : DF) (i : ℕ) (n : String) (v : Cell) :
    (df.setCell i n v).nrows = df.nrows := rfl

theorem DF.nrows_mapCol (df : DF) (n : String) (f : Cell → Cell) :
    (df.mapCol n f).nrows = df.nrows := rfl

theorem DF.nrows_rename (df : DF) (m : List (String × String)) :
    (df.rename m).nrows = df.nrows := rfl

theorem DF.nrows_removeCol (df : DF) (n : String) :
    (df.removeCol n).nrows = df.nrows := rfl

/-- The column-name test used by `getCol`, as a reusable abbreviation. -/
theorem DF.getCol_eq_find? (df : DF) (n : String) :
    df.getCol n =
      match df.cols.find? (fun p => p.1 = n) with
      | some p => p.2
      | none => [] := rfl

theorem find?_map_fst_preserving {g : String × List Cell → String × List Cell}
    (hg : ∀ p, (g p).1 = p.1) (l : List (String × List Cell)) (n : String) :
    (l.map g).find? (fun p => p.1 = n) =
      Option.map g (l.find? (fun p => p.1 = n)) := by
  rw [List.find?_map]
  have hpred : ((fun p : String × List Cell => decide (p.1 = n)) ∘ g) =
      (fun p : String × List Cell => decide (p.1 = n)) := by
    funext p
    simp [Function.comp, hg]
  rw [hpred]

theorem DF.getCol_setCol_self (df : DF) (n : String) (cs : List Cell) :
    (df.setCol n cs).getCol n = cs := by
  obtain ⟨r, l⟩ := df
  unfold DF.setCol
  split
  case isTrue h =>
    simp only [DF.getCol]
    rw [find?_map_fst_preserving (by intro p; by_cases hp : p.1 = n <;> simp [hp])]
    have hs : ((l.find? (fun p => p.1 = n)).isSome) = true := by
      rw [List.find?_isSome]
      simp only [DF.hasCol, DF.colNames, List.mem_map] at h
      obtain ⟨p, hp, hpn⟩ := h
      exact ⟨p, hp, by simp [hpn]⟩
    obtain ⟨p0, hp0⟩ := Option.isSome_iff_exists.mp hs
    have hp0n : p0.1 = n := by simpa using List.find?_some hp0
    simp [hp0, hp0n]
  case isFalse h =>
    simp only [DF.getCol]
    rw [List.find?_append]
    have h1 : l.find? (fun p => p.1 = n) = none := by
      rw [List.find?_eq_none]
      intro p hp
      simp only [DF.hasCol, DF.colNames, List.mem_map] at h
      simpa using fun hpn => h ⟨p, hp, hpn⟩
    simp [h1, List.find?]

theorem DF.getCol_setCol_ne (df : DF) (n n' : String) (cs : List Cell)
    (h : n' ≠ n) : (df.setCol n cs).getCol n' = df.getCol n' := by
  obtain ⟨r, l⟩ := df
  unfold DF.setCol
  split
  case isTrue _ =>
    simp only [DF.getCol]
    rw [find?_map_fst_preserving (by intro p; by_cases hp : p.1 = n <;> simp [hp])]
    cases hf : l.find? (fun p => p.1 = n') with
    | none => simp
    | some p0 =>
      have hp0 : p0.1 = n' := by simpa using List.find?_some hf
      have : ¬ p0.1 = n := by rw [hp0]; exact h
      simp [this]
  case isFalse _ =>
    simp only [DF.getCol]
    rw [List.find?_append]
    have h2 : List.find? (fun p => p.1 = n') [(n, cs)] = none := by
      simp [List.find?, Ne.symm h]
    simp [h2]

theorem DF.getCol_setCell_self (df : DF) (i : ℕ) (n : String) (v : Cell) :
    (df.setCell i n v).getCol n = (df.getCol n).set i v := by
  obtain ⟨r, l⟩ := df
  simp only [DF.setCell, DF.getCol]
  rw [find?_map_fst_preserving (by intro p; by_cases hp : p.1 = n <;> simp [hp])]
  cases hf : l.find? (fun p => p.1 = n) with
  | none => simp
  | some p0 =>
    have hp0 : p0.1 = n := by simpa using List.find?_some hf
    simp [hp0]

theorem DF.getCol_setCell_ne (df : DF) (i : ℕ) (n n' : String) (v : Cell)
    (h : n' ≠ n) : (df.setCell i n v).getCol n' = df.getCol n' := by
  obtain ⟨r, l⟩ := df
  simp only [DF.setCell, DF.getCol]
  rw [find?_map_fst_preserving (by intro p; by_cases hp : p.1 = n <;> simp [hp])]
  cases hf : l.find? (fun p => p.1 = n') with
  | none => simp
  | some p0 =>
    have hp0 : p0.1 = n' := by simpa using List.find?_some hf
    have : ¬ p0.1 = n := by rw [hp0]; exact h
    simp [this]

theorem DF.getCol_mapCol_self (df : DF) (n : String) (f : Cell → Cell) :
    (df.mapCol n f).getCol n = (df.getCol n).map f := by
  obtain ⟨r, l⟩ := df
  simp only [DF.mapCol, DF.getCol]
  rw [find?_map_fst_preserving (by intro p; by_cases hp : p.1 = n <;> simp [hp])]
  cases hf : l.find? (fun p => p.1 = n) with
  | none => simp
  | some p0 =>
    have hp0 : p0.1 = n := by simpa using List.find?_some hf
    simp [hp0]

theorem DF.getCol_mapCol_ne (df : DF) (n n' : String) (f : Cell → Cell)
    (h : n' ≠ n) : (df.mapCol n f).getCol n' = df.getCol n' := by
  obtain ⟨r, l⟩ := df
  simp only [DF.mapCol, DF.getCol]
  rw [find?_map_fst_preserving (by intro p; by_cases hp : p.1 = n <;> simp [hp])]
  cases hf : l.find? (fun p => p.1 = n') with
  | none => simp
  | some p0 =>
    have hp0 : p0.1 = n' := by simpa using List.find?_some hf
    have : ¬ p0.1 = n := by rw [hp0]; exact h
    simp [this]

theorem find?_filter_of_imp {α : Type} (p q : α → Bool)
    (h : ∀ a, p a = true → q a = true) :
    ∀ l : List α, (l.filter q).find? p = l.find? p := by
  intro l
  induction l with
  | nil => rfl
  | cons a t ih =>
    by_cases hq : q a = true
    · rw [List.filter_cons_of_pos hq, List.find?_cons, List.find?_cons]
      cases hp : p a <;> simp [ih]
    · have hp : p a = false := by
        cases hpa : p a
        · rfl
        · exact absurd (h a hpa) hq
      rw [List.filter_cons_of_neg (by simp [hq]), List.find?_cons, hp, ih]

theorem DF.getCol_removeCol_ne (df : DF) (n n' : String) (h : n' ≠ n) :
    (df.removeCol n).getCol n' = df.getCol n' := by
  obtain ⟨r, l⟩ := df
  simp only [DF.removeCol, DF.getCol]
  have hrw := find?_filter_of_imp (α := String × List Cell)
    (fun p => decide (p.1 = n')) (fun p => decide (p.1 ≠ n))
    (by intro a ha; simp at ha ⊢; rw [ha]; exact h) l
  rw [hrw]

theorem DF.colNames_setCol_present (df : DF) (n : String) (cs : List Cell)
    (h : df.hasCol n) : (df.setCol n cs).colNames = df.colNames := by
  simp only [DF.setCol, if_pos h, DF.colNames, List.map_map]
  apply List.map_congr_left
  intro p _
  by_cases hp : p.1 = n <;> simp [hp]

theorem DF.colNames_setCol_absent (df : DF) (n : String) (cs : List Cell)
    (h : ¬ df.hasCol n) : (df.setCol n cs).colNames = df.colNames ++ [n] := by
  simp [DF.setCol, if_neg h, DF.colNames]

theorem DF.colNames_mapCol (df : DF) (n : String) (f : Cell → Cell) :
    (df.mapCol n f).colNames = df.colNames := by
  simp only [DF.mapCol, DF.colNames, List.map_map]
  apply List.map_congr_left
  intro p _
  by_cases hp : p.1 = n <;> simp [hp]

theorem DF.colNames_rename (df : DF) (m : List (String × String)) :
    (df.rename m).colNames = df.colNames.map (renameFn m) := by
  simp [DF.rename, DF.colNames, List.map_map, Function.comp]

theorem DF.hasCol_setCol_self (df : DF) (n : String) (cs : List Cell) :
    (df.setCol n cs).hasCol n := by
  by_cases h : df.hasCol n
  · rw [DF.hasCol, df.colNames_setCol_present n cs h]; exact h
  · rw [DF.hasCol, df.colNames_setCol_absent n cs h]; simp

theorem DF.hasCol_setCol_of (df : DF) (n n' : String) (cs : List Cell)
    (h : df.hasCol n') : (df.setCol n cs).hasCol n' := by
  by_cases hn : df.hasCol n
  · rw [DF.hasCol, df.colNames_setCol_present n cs hn]; exact h
  · rw [DF.hasCol, df.colNames_setCol_absent n cs hn]; simp only [List.mem_append]
    exact Or.inl h

theorem cellAt_rangeMap {n : ℕ} (f : ℕ → Cell) {i : ℕ} (h : i < n) :
    cellAt ((List.range n).map f) i = f i := by
  simp [cellAt, List.getD_eq_getElem?_getD, List.getElem?_map, List.getElem?_range h]

theorem cellAt_replicate (n : ℕ) (i : ℕ) :
    cellAt (List.replicate n Cell.na) i = Cell.na := by
  simp [cellAt, List.getD_eq_getElem?_getD, List.getElem?_replicate]
  split <;> rfl

/-!
## Claim C2: the schema validator
-/

theorem joinComma_split (c : String) :
    ∀ l : List String, c ∈ l → ∃ p s, joinComma l = p ++ c ++ s := by
  intro l
  induction l with
  | nil => intro h; cases h
  | cons x t ih =>
    intro hc
    rw [List.mem_cons] at hc
    cases t with
    | nil =>
      rcases hc with rfl | h
      · refine ⟨"", "", ?_⟩
        apply String.ext
        simp [joinComma, String.data_append]
      · cases h
    | cons y s =>
      rcases hc with rfl | h
      · refine ⟨"", ", " ++ joinComma (y :: s), ?_⟩
        apply String.ext
        simp [joinComma, String.data_append]
      · obtain ⟨p, s', hps⟩ := ih h
        refine ⟨x ++ ", " ++ p, s', ?_⟩
        apply String.ext
        simp [joinComma, hps, String.data_append]

/-- C2: the Schema Validator succeeds iff all four required canonical
display columns are present; it depends only on the column-name list (so
never on any cell value); and on failure its single message contains every
missing required column's name. -/
theorem claim2_schema_validator (df : DF) :
    ((validate_schema df).1 = true ↔ ∀ c ∈ REQUIRED_COLS_DISPLAY, df.hasCol c)
    ∧ (∀ df' : DF, df.colNames = df'.colNames →
        validate_schema df = validate_schema df')
    ∧ (∀ c ∈ REQUIRED_COLS_DISPLAY, ¬ df.hasCol c →
        ∃ m, (validate_schema df).2 = some m ∧ c.toList <:+: m.toList) := by
  refine ⟨?_, ?_, ?_⟩
  · simp only [validate_schema]
    by_cases h : (REQUIRED_COLS_DISPLAY.filter
        (fun c => decide (¬ df.hasCol c))).isEmpty = true
    · rw [if_pos h]
      constructor
      · intro _ c hc
        rw [List.isEmpty_iff, List.filter_eq_nil_iff] at h
        simpa using h c hc
      · intro _; rfl
    · rw [if_neg h]
      constructor
      · intro hfalse; cases hfalse
      · intro hall
        exfalso
        apply h
        rw [List.isEmpty_iff, List.filter_eq_nil_iff]
        intro c hc
        simpa using hall c hc
  · intro df' hnames
    have hcols : ∀ c, df.hasCol c ↔ df'.hasCol c := by
      intro c; rw [DF.hasCol, DF.hasCol, hnames]
    simp only [validate_schema]
    have hpred : (fun c => decide (¬ df.hasCol c)) =
        (fun c => decide (¬ df'.hasCol c)) := by
      funext c
      by_cases h : df.hasCol c
      · simp [h, (hcols c).mp h]
      · have h' : ¬ df'.hasCol c := fun hh => h ((hcols c).mpr hh)
        simp [h, h']
    rw [hpred]
  · intro c hc hmiss
    have hmem : c ∈ REQUIRED_COLS_DISPLAY.filter (fun c => decide (¬ df.hasCol c)) := by
      rw [List.mem_filter]
      exact ⟨hc, by simpa using hmiss⟩
    have hne : ¬ (REQUIRED_COLS_DISPLAY.filter
        (fun c => decide (¬ df.hasCol c))).isEmpty = true := by
      rw [List.isEmpty_iff]
      intro h0
      rw [h0] at hmem
      cases hmem
    refine ⟨"Missing required columns: " ++
      joinComma (REQUIRED_COLS_DISPLAY.filter (fun c => decide (¬ df.hasCol c))), ?_, ?_⟩
    · simp only [validate_schema]
      rw [if_neg hne]
    · obtain ⟨p, s', hps⟩ := joinComma_split c _ hmem
      refine ⟨("Missing required columns: " ++ p).toList, s'.toList, ?_⟩
      rw [hps]
      simp [String.toList, String.data_append]

/-- Witness for C2 at a concrete frame missing three required columns:
the validator fails and its message mentions the missing column names. -/
theorem claim2_schema_validator_witness :
    ∃ m, (validate_schema witC2df).2 = some m ∧
      ("Quantity").toList <:+: m.toList :=
  (claim2_schema_validator witC2df).2.2 "Quantity" (by decide) (by decide)

/-!
## Claim C5: the total-cost derivation of the Header Normalizer
-/

/-- C5 counterexample: quantity 2 and cost-per-coin 10 are numeric and the
fees column is absent, so the claimed formula with fees treated as 0 gives
total cost 20; the source instead propagates the NaN fees and produces a
missing value. -/
theorem claim5_cex :
    cellAt ((normalize_headers cexC5df).getCol "Quantity") 0 = Cell.num 2
    ∧ cellAt ((normalize_headers cexC5df).getCol "Cost per Coin (USD)") 0 = Cell.num 10
    ∧ cellAt ((normalize_headers cexC5df).getCol "FeesUSD") 0 = Cell.na
    ∧ cellAt ((normalize_headers cexC5df).getCol "TotalCostUSD") 0 = Cell.na := by
  decide

/-!
## Case analysis on `lowerChar` and label shapes
-/

theorem lookup_mem_snd {α β : Type} [BEq α] [LawfulBEq α]
    (t : List (α × β)) (c : α) (v : β) (h : t.lookup c = some v) :
    v ∈ t.map Prod.snd := by
  induction t with
  | nil => cases h
  | cons p rest ih =>
    rw [show p = (p.1, p.2) from rfl, List.lookup_cons] at h
    by_cases hc : c == p.1
    · simp only [hc] at h
      cases h
      simp
    · simp only [Bool.of_not_eq_true hc] at h
      simp [ih h]

theorem lookup_mem_pair {α β : Type} [BEq α] [LawfulBEq α]
    (t : List (α × β)) (c : α) (v : β) (h : t.lookup c = some v) :
    (c, v) ∈ t := by
  induction t with
  | nil => cases h
  | cons p rest ih =>
    rw [show p = (p.1, p.2) from rfl, List.lookup_cons] at h
    by_cases hc : c == p.1
    · simp only [hc] at h
      cases h
      have : c = p.1 := by exact eq_of_beq hc
      simp [this]
    · simp only [Bool.of_not_eq_true hc] at h
      simp [ih h]

theorem lowerChar_fixed_values : ∀ v ∈ UPPER_LOWER.map Prod.snd, lowerChar v = v := by
  decide

theorem lowerChar_idem (c : Char) : lowerChar (lowerChar c) = lowerChar c := by
  unfold lowerChar
  cases h : UPPER_LOWER.lookup c with
  | none => simp [h]
  | some v =>
    have hv := lookup_mem_snd UPPER_LOWER c v h
    have hfix := lowerChar_fixed_values v hv
    unfold lowerChar at hfix
    simpa [h] using hfix

theorem lowerChar_mem_normList (l : List Char) (c : Char) (h : c ∈ normList l) :
    lowerChar c = c := by
  unfold normList at h
  rw [List.mem_map] at h
  obtain ⟨b, _, rfl⟩ := h
  exact lowerChar_idem b

theorem LFixed_normLabel (s : String) : LFixed (normLabel s) := by
  intro c hc
  have : (normLabel s).toList = normList s.toList := rfl
  rw [this] at hc
  exact lowerChar_mem_normList _ _ hc

/-!
## The rename map built by step 2
-/

theorem brm_mem : ∀ (table : List (String × List String)) (present : List String),
    ∀ p ∈ brm table present, ∃ q ∈ table, p.2 = q.1 ∧ p.1 ∈ q.2 := by
  intro table
  induction table with
  | nil => intro present p hp; cases hp
  | cons q rest ih =>
    intro present p hp
    obtain ⟨canon, alts⟩ := q
    rw [brm] at hp
    by_cases hcp : canon ∈ present
    · rw [if_pos hcp] at hp
      obtain ⟨q', hq', h1, h2⟩ := ih present p hp
      exact ⟨q', List.mem_cons_of_mem _ hq', h1, h2⟩
    · rw [if_neg hcp] at hp
      cases hfind : alts.find? (fun a => present.contains a) with
      | none =>
        rw [hfind] at hp
        obtain ⟨q', hq', h1, h2⟩ := ih present p hp
        exact ⟨q', List.mem_cons_of_mem _ hq', h1, h2⟩
      | some alt =>
        rw [hfind] at hp
        rcases List.mem_cons.mp hp with rfl | hp'
        · exact ⟨(canon, alts), List.mem_cons_self _ _, rfl,
            List.mem_of_find?_eq_some hfind⟩
        · obtain ⟨q', hq', h1, h2⟩ := ih present p hp'
          exact ⟨q', List.mem_cons_of_mem _ hq', h1, h2⟩

theorem brm_eq_nil : ∀ (table : List (String × List String)) (present : List String),
    (∀ q ∈ table, q.1 ∈ present) → brm table present = [] := by
  intro table
  induction table with
  | nil => intro _ _; rfl
  | cons q rest ih =>
    intro present h
    obtain ⟨canon, alts⟩ := q
    rw [brm, if_pos (h (canon, alts) (List.mem_cons_self _ _))]
    exact ih present (fun q' hq' => h q' (List.mem_cons_of_mem _ hq'))

theorem lookup_eq_none_of_not_mem_fst {α β : Type} [BEq α] [LawfulBEq α]
    (t : List (α × β)) (c : α) (h : c ∉ t.map Prod.fst) : t.lookup c = none := by
  induction t with
  | nil => rfl
  | cons p rest ih =>
    rw [show p = (p.1, p.2) from rfl, List.lookup_cons]
    by_cases hc : c == p.1
    · exact absurd (by simp [eq_of_beq hc]) h
    · simp only [Bool.of_not_eq_true hc]
      exact ih (fun hm => h (by simp [List.mem_cons]; right; simpa using hm))

theorem renameFn_eq_self (m : List (String × String)) (n : String)
    (h : m.lookup n = none) : renameFn m n = n := by
  simp [renameFn, h]

theorem renameFn_brm_not_alias (present : List String) (n : String)
    (h : ¬ isAliasAlt n) : renameFn (brm ALIAS_TABLE present) n = n := by
  apply renameFn_eq_self
  cases hl : (brm ALIAS_TABLE present).lookup n with
  | none => rfl
  | some v =>
    exfalso
    have hpair := lookup_mem_pair _ _ _ hl
    obtain ⟨q, hq, _, hmem⟩ := brm_mem ALIAS_TABLE present (n, v) hpair
    exact h ⟨q, hq, hmem⟩

theorem display_fst_canon : DISPLAY_MAP.map Prod.fst = CANON_KEYS := by decide

theorem renameFn_display_not_canon (n : String) (h : ¬ isCanon n) :
    renameFn DISPLAY_MAP n = n := by
  apply renameFn_eq_self
  apply lookup_eq_none_of_not_mem_fst
  rw [display_fst_canon]
  exact h

theorem display_renameFn : ∀ p ∈ DISPLAY_MAP, renameFn DISPLAY_MAP p.1 = p.2 := by
  decide

/-!
## Presence of columns along the normalization pipeline
-/

theorem hasCol_ensure_fold (L : List String) :
    ∀ (df : DF) (n : String), df.hasCol n →
      (L.foldl (fun d c =>
        if d.hasCol c then d else d.setCol c (List.replicate d.nrows .na)) df).hasCol n := by
  induction L with
  | nil => intro df n h; exact h
  | cons c t ih =>
    intro df n h
    apply ih
    show (if df.hasCol c then df else df.setCol c (List.replicate df.nrows .na)).hasCol n
    by_cases hdc : df.hasCol c
    · rw [if_pos hdc]; exact h
    · rw [if_neg hdc]; exact df.hasCol_setCol_of c n _ h

theorem hasCol_ensure_fold_mem (L : List String) :
    ∀ (df : DF), ∀ c ∈ L,
      (L.foldl (fun d c =>
        if d.hasCol c then d else d.setCol c (List.replicate d.nrows .na)) df).hasCol c := by
  induction L with
  | nil => intro df c h; cases h
  | cons x t ih =>
    intro df c hc
    rcases List.mem_cons.mp hc with rfl | hc'
    · rw [List.foldl_cons]
      apply hasCol_ensure_fold
      show (if df.hasCol c then df else df.setCol c (List.replicate df.nrows .na)).hasCol c
      by_cases hdc : df.hasCol c
      · rw [if_pos hdc]; exact hdc
      · rw [if_neg hdc]; exact df.hasCol_setCol_self c _
    · exact ih _ c hc'

theorem hasCol_nhStep3_of (df : DF) (n : String) (h : df.hasCol n) :
    (nhStep3 df).hasCol n := hasCol_ensure_fold _ df n h

theorem hasCol_nhStep3_req (df : DF) : ∀ c ∈ REQUIRED_WORKING, (nhStep3 df).hasCol c :=
  hasCol_ensure_fold_mem _ df

theorem colNames_nhStep4a (df : DF) : (nhStep4a df).colNames = df.colNames := by
  simp only [nhStep4a, NUMERIC_WORKING, List.foldl_cons, List.foldl_nil]
  rw [DF.colNames_mapCol, DF.colNames_mapCol, DF.colNames_mapCol]

theorem hasCol_nhStep4a (df : DF) (n : String) (h : df.hasCol n) :
    (nhStep4a df).hasCol n := by
  rw [DF.hasCol, colNames_nhStep4a]
  exact h

theorem hasCol_nhStep4b_of (df : DF) (n : String) (h : df.hasCol n) :
    (nhStep4b df).hasCol n := by
  unfold nhStep4b
  split
  · exact h
  · exact df.hasCol_setCol_of _ n _ h

theorem hasCol_nhStep4b_total (df : DF) : (nhStep4b df).hasCol "totalcostusd" := by
  unfold nhStep4b
  split
  case isTrue h => exact h
  case isFalse h => exact df.hasCol_setCol_self _ _

theorem hasCol_rename_of (df : DF) (m : List (String × String)) (n : String)
    (h : df.hasCol n) : (df.rename m).hasCol (renameFn m n) := by
  rw [DF.hasCol, DF.colNames_rename]
  exact List.mem_map_of_mem _ h

/-!
## Claim C1: fate of unmatched raw labels
-/

/-- C1 counterexample: the raw label `Unknown Col` normalizes to
`unknown col`, which matches no canonical name and no alias, yet the
normalizer's output still contains that column — unmatched labels are
preserved, not dropped. -/
theorem claim1_cex :
    normLabel "Unknown Col" = "unknown col"
    ∧ ¬ isCanon "unknown col"
    ∧ ¬ isAliasAlt "unknown col"
    ∧ (normalize_headers cexC1df).hasCol "unknown col" := by
  decide

/-- C1 amended: a raw label whose normalized form matches neither a
canonical field name nor any alias is preserved in the output (under its
normalized form), never dropped. -/
theorem claim1_unknown_labels_kept (df : DF) (c : String) (hc : c ∈ df.colNames)
    (h1 : ¬ isCanon (normLabel c)) (h2 : ¬ isAliasAlt (normLabel c)) :
    (normalize_headers df).hasCol (normLabel c) := by
  have s1 : (nhStep1 df).hasCol (normLabel c) := by
    rw [DF.hasCol]
    have : (nhStep1 df).colNames = df.colNames.map normLabel := by
      simp [nhStep1, DF.colNames, List.map_map, Function.comp]
    rw [this]
    exact List.mem_map_of_mem _ hc
  have s2 : (nhStep2 (nhStep1 df)).hasCol (normLabel c) := by
    have := hasCol_rename_of (nhStep1 df) (brm ALIAS_TABLE (nhStep1 df).colNames)
      (normLabel c) s1
    rwa [renameFn_brm_not_alias _ _ h2] at this
  have s3 := hasCol_nhStep3_of _ _ s2
  have s4a := hasCol_nhStep4a _ _ s3
  have s4b := hasCol_nhStep4b_of _ _ s4a
  have s5 := hasCol_rename_of _ DISPLAY_MAP _ s4b
  rwa [renameFn_display_not_canon _ h1] at s5

/-- Witness for the amended C1 at the concrete frame with one unmatched
label. -/
theorem claim1_unknown_labels_kept_witness :
    (normalize_headers cexC1df).hasCol (normLabel "Unknown Col") :=
  claim1_unknown_labels_kept cexC1df "Unknown Col" (by decide) (by decide) (by decide)

/-!
## Claim C10: the normalizer always satisfies the validator
-/

/-- C10: the Header Normalizer's output always contains the four required
display columns, and therefore the Schema Validator always succeeds on it —
its failure branch is unreachable through the normal pipeline. -/
theorem claim10_normalized_validates (df : DF) :
    (∀ c ∈ REQUIRED_COLS_DISPLAY, (normalize_headers df).hasCol c)
    ∧ validate_schema (normalize_headers df) = (true, none) := by
  have key : ∀ k D : String, (k, D) ∈ DISPLAY_MAP → k ∈ REQUIRED_WORKING →
      (normalize_headers df).hasCol D := by
    intro k D hkD hk
    have h3 : (nhStep3 (nhStep2 (nhStep1 df))).hasCol k := hasCol_nhStep3_req _ k hk
    have h4a := hasCol_nhStep4a _ _ h3
    have h4b := hasCol_nhStep4b_of _ _ h4a
    have h5 := hasCol_rename_of _ DISPLAY_MAP _ h4b
    rwa [display_renameFn (k, D) hkD] at h5
  have hall : ∀ c ∈ REQUIRED_COLS_DISPLAY, (normalize_headers df).hasCol c := by
    intro c hc
    simp only [REQUIRED_COLS_DISPLAY, List.mem_cons, List.not_mem_nil, or_false] at hc
    rcases hc with rfl | rfl | rfl | rfl
    · exact key "date of purchase" _ (by decide) (by decide)
    · exact key "coin type" _ (by decide) (by decide)
    · exact key "quantity" _ (by decide) (by decide)
    · exact key "cost per coin (usd)" _ (by decide) (by decide)
  refine ⟨hall, ?_⟩
  simp only [validate_schema]
  have hnil : REQUIRED_COLS_DISPLAY.filter
      (fun c => decide (¬ (normalize_headers df).hasCol c)) = [] := by
    rw [List.filter_eq_nil_iff]
    intro c hc
    simpa using hall c hc
  rw [hnil]
  rfl

/-- Witness for C10 at a concrete raw frame with an unrecognized header. -/
theorem claim10_normalized_validates_witness :
    (normalize_headers cexC1df).hasCol "Quantity"
    ∧ validate_schema (normalize_headers cexC1df) = (true, none) :=
  ⟨(claim10_normalized_validates cexC1df).1 "Quantity" (by decide),
   (claim10_normalized_validates cexC1df).2⟩

/-!
## Shape of the column names produced by the normalizer
-/

theorem canon_LFixed : ∀ n ∈ CANON_KEYS, LFixed n := by decide

theorem reqw_LFixed : ∀ n ∈ REQUIRED_WORKING, LFixed n := by decide

theorem display_not_LFixed : ∀ p ∈ DISPLAY_MAP, ¬ LFixed p.2 := by decide

theorem display_snd_inj :
    ∀ p ∈ DISPLAY_MAP, ∀ q ∈ DISPLAY_MAP, p.2 = q.2 → p.1 = q.1 := by decide

theorem colNames_nhStep1 (df : DF) :
    (nhStep1 df).colNames = df.colNames.map normLabel := by
  simp [nhStep1, DF.colNames, List.map_map, Function.comp]

theorem renameFn_brm_LFixed (present : List String) (n : String) (hn : LFixed n) :
    LFixed (renameFn (brm ALIAS_TABLE present) n) := by
  cases hl : (brm ALIAS_TABLE present).lookup n with
  | none => rw [renameFn_eq_self _ _ hl]; exact hn
  | some v =>
    have : renameFn (brm ALIAS_TABLE present) n = v := by simp [renameFn, hl]
    rw [this]
    obtain ⟨q, hq, hv, _⟩ := brm_mem ALIAS_TABLE present (n, v) (lookup_mem_pair _ _ _ hl)
    apply canon_LFixed v
    have : v = q.1 := hv
    rw [this]
    exact List.mem_map_of_mem Prod.fst hq

theorem names_step2_LFixed (df : DF) :
    ∀ n ∈ (nhStep2 (nhStep1 df)).colNames, LFixed n := by
  intro n hn
  rw [nhStep2, DF.colNames_rename, colNames_nhStep1] at hn
  rw [List.mem_map] at hn
  obtain ⟨n0, hn0, rfl⟩ := hn
  rw [List.mem_map] at hn0
  obtain ⟨c0, _, rfl⟩ := hn0
  exact renameFn_brm_LFixed _ _ (LFixed_normLabel c0)

theorem names_ensure_fold_sub (L : List String) :
    ∀ (df : DF) (n : String),
      n ∈ (L.foldl (fun d c =>
        if d.hasCol c then d else d.setCol c (List.replicate d.nrows .na)) df).colNames →
      n ∈ df.colNames ∨ n ∈ L := by
  induction L with
  | nil => intro df n h; exact Or.inl h
  | cons c t ih =>
    intro df n h
    rw [List.foldl_cons] at h
    rcases ih _ n h with h' | h'
    · by_cases hdc : df.hasCol c
      · rw [if_pos hdc] at h'
        exact Or.inl h'
      · rw [if_neg hdc] at h'
        have h2 : n ∈ (df.setCol c (List.replicate df.nrows .na)).colNames := h'
        rw [df.colNames_setCol_absent _ _ hdc] at h2
        rcases List.mem_append.mp h2 with h'' | h''
        · exact Or.inl h''
        · simp only [List.mem_singleton] at h''
          exact Or.inr (h'' ▸ List.mem_cons_self _ _)
    · exact Or.inr (List.mem_cons_of_mem _ h')

theorem names_A_LFixed (df : DF) :
    ∀ n ∈ (nhStep4a (nhStep3 (nhStep2 (nhStep1 df)))).colNames, LFixed n := by
  intro n hn
  rw [colNames_nhStep4a] at hn
  rcases names_ensure_fold_sub REQUIRED_WORKING _ n hn with h | h
  · exact names_step2_LFixed df n h
  · exact reqw_LFixed n h

theorem names_E4b_LFixed (df : DF) :
    ∀ n ∈ (nhStep4b (nhStep4a (nhStep3 (nhStep2 (nhStep1 df))))).colNames, LFixed n := by
  intro n hn
  unfold nhStep4b at hn
  split at hn
  · exact names_A_LFixed df n hn
  case isFalse habs =>
    have h2 : n ∈ ((nhStep4a (nhStep3 (nhStep2 (nhStep1 df)))).setCol "totalcostusd"
        ((List.range (nhStep4a (nhStep3 (nhStep2 (nhStep1 df)))).nrows).map (fun i =>
          cellAdd
            (cellMul (cellAt ((nhStep4a (nhStep3 (nhStep2 (nhStep1 df)))).getCol "quantity") i)
              (cellAt ((nhStep4a (nhStep3 (nhStep2 (nhStep1 df)))).getCol "cost per coin (usd)") i))
            (cellAt ((nhStep4a (nhStep3 (nhStep2 (nhStep1 df)))).getCol "feesusd") i)))).colNames := hn
    rw [DF.colNames_setCol_absent _ _ _ habs] at h2
    rcases List.mem_append.mp h2 with h | h
    · exact names_A_LFixed df n h
    · simp only [List.mem_singleton] at h
      subst h
      decide

theorem renameFn_display_eq_iff (n k D : String) (hn : LFixed n)
    (hkD : (k, D) ∈ DISPLAY_MAP) : renameFn DISPLAY_MAP n = D ↔ n = k := by
  constructor
  · intro h
    cases hl : DISPLAY_MAP.lookup n with
    | none =>
      rw [renameFn_eq_self _ _ hl] at h
      subst h
      exact absurd hn (display_not_LFixed (k, n) hkD)
    | some d =>
      have hd : renameFn DISPLAY_MAP n = d := by simp [renameFn, hl]
      rw [hd] at h
      exact display_snd_inj (n, d) (lookup_mem_pair _ _ _ hl) (k, D) hkD h
  · intro h
    subst h
    exact display_renameFn (n, D) hkD

theorem find?_rename_iff (f : String → String) (k D : String) :
    ∀ l : List (String × List Cell), (∀ p ∈ l, (f p.1 = D ↔ p.1 = k)) →
      (l.map (fun p => (f p.1, p.2))).find? (fun p => p.1 = D) =
        Option.map (fun p => (f p.1, p.2)) (l.find? (fun p => p.1 = k)) := by
  intro l
  induction l with
  | nil => intro _; rfl
  | cons p t ih =>
    intro h
    have hiff := h p (by simp)
    rw [List.map_cons, List.find?_cons, List.find?_cons]
    by_cases hpk : p.1 = k
    · have hD : f p.1 = D := hiff.mpr hpk
      have e1 : (decide (((f p.1, p.2) : String × List Cell).1 = D)) = true := by
        simp [hD]
      have e2 : (decide (p.1 = k)) = true := by simp [hpk]
      rw [e1, e2]
      rfl
    · have hD : ¬ f p.1 = D := fun hh => hpk (hiff.mp hh)
      have e1 : (decide (((f p.1, p.2) : String × List Cell).1 = D)) = false := by
        simp [hD]
      have e2 : (decide (p.1 = k)) = false := by simp [hpk]
      rw [e1, e2]
      exact ih (fun q hq => h q (by simp [hq]))

theorem getCol_rename_display (df : DF) (hL : ∀ n ∈ df.colNames, LFixed n)
    (k D : String) (hkD : (k, D) ∈ DISPLAY_MAP) :
    (df.rename DISPLAY_MAP).getCol D = df.getCol k := by
  obtain ⟨r, l⟩ := df
  simp only [DF.rename, DF.getCol]
  simp only [DF.colNames] at hL
  rw [find?_rename_iff (renameFn DISPLAY_MAP) k D l
    (fun p hp => renameFn_display_eq_iff p.1 k D
      (hL p.1 (List.mem_map_of_mem Prod.fst hp)) hkD)]
  cases l.find? (fun p => p.1 = k) with
  | none => rfl
  | some p0 => rfl

/-!
## Claim C5: the amended total-cost formula
-/

theorem nrows_ensure_fold (L : List String) :
    ∀ df : DF, (L.foldl (fun d c =>
      if d.hasCol c then d else d.setCol c (List.replicate d.nrows .na)) df).nrows
      = df.nrows := by
  induction L with
  | nil => intro df; rfl
  | cons c t ih =>
    intro df
    rw [List.foldl_cons, ih]
    show (if df.hasCol c then df else df.setCol c (List.replicate df.nrows .na)).nrows
      = df.nrows
    split
    · rfl
    · exact df.nrows_setCol _ _

theorem nrows_A (df : DF) :
    (nhStep4a (nhStep3 (nhStep2 (nhStep1 df)))).nrows = df.nrows := by
  simp only [nhStep4a, NUMERIC_WORKING, List.foldl_cons, List.foldl_nil,
    DF.nrows_mapCol]
  rw [nhStep3, nrows_ensure_fold]
  rfl

/-- C5 amended: when the total-cost column is absent after alias renaming,
the Header Normalizer computes it as `quantity * cost_per_coin_usd +
fees_usd` under NaN-propagating arithmetic — in particular a fees value
that is not a number makes the computed total not a number, rather than
being treated as 0. -/
theorem claim5_total_cost_propagates (df : DF)
    (habs : ¬ (nhStep4a (nhStep3 (nhStep2 (nhStep1 df)))).hasCol "totalcostusd")
    (i : ℕ) (hi : i < df.nrows) :
    cellAt ((normalize_headers df).getCol "TotalCostUSD") i =
      cellAdd
        (cellMul (cellAt ((normalize_headers df).getCol "Quantity") i)
          (cellAt ((normalize_headers df).getCol "Cost per Coin (USD)") i))
        (cellAt ((normalize_headers df).getCol "FeesUSD") i)
    ∧ (cellAt ((normalize_headers df).getCol "FeesUSD") i = Cell.na →
        cellAt ((normalize_headers df).getCol "TotalCostUSD") i = Cell.na) := by
  set A := nhStep4a (nhStep3 (nhStep2 (nhStep1 df))) with hA
  have hstep4b : nhStep4b A = A.setCol "totalcostusd"
      ((List.range A.nrows).map (fun i =>
        cellAdd
          (cellMul (cellAt (A.getCol "quantity") i)
            (cellAt (A.getCol "cost per coin (usd)") i))
          (cellAt (A.getCol "feesusd") i))) := by
    rw [nhStep4b, if_neg habs]
  have hLE : ∀ n ∈ (nhStep4b A).colNames, LFixed n := names_E4b_LFixed df
  have hnorm : normalize_headers df = (nhStep4b A).rename DISPLAY_MAP := rfl
  have htc : (normalize_headers df).getCol "TotalCostUSD" =
      (nhStep4b A).getCol "totalcostusd" := by
    rw [hnorm]
    exact getCol_rename_display _ hLE _ _ (by decide)
  have hq : (normalize_headers df).getCol "Quantity" = A.getCol "quantity" := by
    rw [hnorm, getCol_rename_display _ hLE "quantity" _ (by decide), hstep4b]
    exact A.getCol_setCol_ne _ _ _ (by decide)
  have hc : (normalize_headers df).getCol "Cost per Coin (USD)"
      = A.getCol "cost per coin (usd)" := by
    rw [hnorm, getCol_rename_display _ hLE "cost per coin (usd)" _ (by decide), hstep4b]
    exact A.getCol_setCol_ne _ _ _ (by decide)
  have hf : (normalize_headers df).getCol "FeesUSD" = A.getCol "feesusd" := by
    rw [hnorm, getCol_rename_display _ hLE "feesusd" _ (by decide), hstep4b]
    exact A.getCol_setCol_ne _ _ _ (by decide)
  have htc2 : (nhStep4b A).getCol "totalcostusd" =
      (List.range A.nrows).map (fun i =>
        cellAdd
          (cellMul (cellAt (A.getCol "quantity") i)
            (cellAt (A.getCol "cost per coin (usd)") i))
          (cellAt (A.getCol "feesusd") i)) := by
    rw [hstep4b]
    exact A.getCol_setCol_self _ _
  have hiA : i < A.nrows := by rw [nrows_A df]; exact hi
  have hval := cellAt_rangeMap (n := A.nrows)
    (f := fun i => cellAdd
      (cellMul (cellAt (A.getCol "quantity") i)
        (cellAt (A.getCol "cost per coin (usd)") i))
      (cellAt (A.getCol "feesusd") i)) hiA
  constructor
  · rw [htc, htc2, hval, hq, hc, hf]
  · intro hna
    rw [hf] at hna
    rw [htc, htc2, hval]
    show cellAdd
        (cellMul (cellAt (A.getCol "quantity") i)
          (cellAt (A.getCol "cost per coin (usd)") i))
        (cellAt (A.getCol "feesusd") i) = Cell.na
    rw [hna]
    unfold cellAdd
    cases cellNum? (cellMul (cellAt (A.getCol "quantity") i)
      (cellAt (A.getCol "cost per coin (usd)") i)) <;> rfl

/-!
## Claim C7: offline mode
-/

theorem getCol_enrichInit_untouched (df : DF) (n : String)
    (h1 : n ≠ "Coin Key") (h2 : n ≠ "Current Price (USD)")
    (h3 : n ≠ "Position Value (USD)") (h4 : n ≠ "Cost Basis (USD)")
    (h5 : n ≠ "Unrealized P/L (USD)") (h6 : n ≠ "Unrealized P/L (%)") :
    (enrichInit df).getCol n = df.getCol n := by
  simp only [enrichInit]
  rw [DF.getCol_setCol_ne _ _ _ _ h6, DF.getCol_setCol_ne _ _ _ _ h5,
    DF.getCol_setCol_ne _ _ _ _ h4, DF.getCol_setCol_ne _ _ _ _ h3,
    DF.getCol_setCol_ne _ _ _ _ h2, DF.getCol_setCol_ne _ _ _ _ h1]

theorem getCol_enrichInit_cost_basis (df : DF) :
    (enrichInit df).getCol "Cost Basis (USD)" =
      (List.range df.nrows).map (fun i =>
        round2Cell
          (cellAdd
            (cellMul (cellAt (df.getCol "Quantity") i)
              (cellAt (df.getCol "Cost per Coin (USD)") i))
            (Cell.num
              ((cellNum? (toNumericCell (cellAt (df.getCol "FeesUSD") i))).getD 0)))) := by
  simp only [enrichInit]
  rw [DF.getCol_setCol_ne _ _ _ _ (by decide), DF.getCol_setCol_ne _ _ _ _ (by decide),
    DF.getCol_setCol_self]
  rw [DF.getCol_setCol_ne _ _ _ _ (by decide), DF.getCol_setCol_ne _ _ _ _ (by decide),
    DF.getCol_setCol_ne _ _ _ _ (by decide)]
  rw [DF.getCol_setCol_ne _ _ _ _ (by decide), DF.getCol_setCol_ne _ _ _ _ (by decide),
    DF.getCol_setCol_ne _ _ _ _ (by decide)]
  rw [DF.getCol_setCol_ne _ _ _ _ (by decide), DF.getCol_setCol_ne _ _ _ _ (by decide),
    DF.getCol_setCol_ne _ _ _ _ (by decide)]

theorem getCol_enrichInit_na (df : DF) (n : String)
    (h : n = "Current Price (USD)" ∨ n = "Position Value (USD)"
      ∨ n = "Unrealized P/L (USD)" ∨ n = "Unrealized P/L (%)") :
    (enrichInit df).getCol n = List.replicate df.nrows Cell.na := by
  simp only [enrichInit]
  rcases h with rfl | rfl | rfl | rfl
  · rw [DF.getCol_setCol_ne _ _ _ _ (by decide), DF.getCol_setCol_ne _ _ _ _ (by decide),
      DF.getCol_setCol_ne _ _ _ _ (by decide), DF.getCol_setCol_ne _ _ _ _ (by decide),
      DF.getCol_setCol_self]
  · rw [DF.getCol_setCol_ne _ _ _ _ (by decide), DF.getCol_setCol_ne _ _ _ _ (by decide),
      DF.getCol_setCol_ne _ _ _ _ (by decide), DF.getCol_setCol_self]
  · rw [DF.getCol_setCol_ne _ _ _ _ (by decide), DF.getCol_setCol_self]
  · rw [DF.getCol_setCol_self]

/-- C7: in offline mode `enrich` performs no price lookup, leaves all four
price-derived columns null for every record, and always populates the cost
basis as `round(quantity * cost_per_coin + fees, 2)` with a missing or
non-numeric fees value treated as 0, whenever quantity and cost-per-coin
are numeric. -/
theorem claim7_offline (df : DF) ( _hin : EnrichInput df)
    (fetch : String → PriceResult) :
    (enrich df true fetch).2 = []
    ∧ (∀ i, i < df.nrows →
        cellAt ((enrich df true fetch).1.getCol "Current Price (USD)") i = Cell.na
        ∧ cellAt ((enrich df true fetch).1.getCol "Position Value (USD)") i = Cell.na
        ∧ cellAt ((enrich df true fetch).1.getCol "Unrealized P/L (USD)") i = Cell.na
        ∧ cellAt ((enrich df true fetch).1.getCol "Unrealized P/L (%)") i = Cell.na)
    ∧ (∀ i q c, i < df.nrows →
        cellAt (df.getCol "Quantity") i = Cell.num q →
        cellAt (df.getCol "Cost per Coin (USD)") i = Cell.num c →
        cellAt ((enrich df true fetch).1.getCol "Cost Basis (USD)") i =
          Cell.num (round2 (q * c +
            ((cellNum? (toNumericCell (cellAt (df.getCol "FeesUSD") i))).getD 0)))) := by
  have hout : (enrich df true fetch).1 = (enrichInit df).removeCol "Coin Key" := rfl
  refine ⟨rfl, ?_, ?_⟩
  · intro i _
    refine ⟨?_, ?_, ?_, ?_⟩ <;>
      rw [hout, DF.getCol_removeCol_ne _ _ _ (by decide),
        getCol_enrichInit_na df _ (by simp), cellAt_replicate]
  · intro i q c hi hq hc
    rw [hout, DF.getCol_removeCol_ne _ _ _ (by decide), getCol_enrichInit_cost_basis,
      cellAt_rangeMap _ hi, hq, hc]
    rfl

/-- Witness for C7: the spec's offline scenario (quantity 2, cost 10000,
no fees) yields cost basis 20000 and a null current price. -/
theorem claim7_offline_witness :
    cellAt ((enrich witC7df true okFetch).1.getCol "Current Price (USD)") 0 = Cell.na
    ∧ cellAt ((enrich witC7df true okFetch).1.getCol "Cost Basis (USD)") 0 =
        Cell.num (round2 (2 * 10000 +
          ((cellNum? (toNumericCell (cellAt (witC7df.getCol "FeesUSD") 0))).getD 0))) :=
  ⟨((claim7_offline witC7df (by decide) okFetch).2.1 0 (by decide)).1,
   (claim7_offline witC7df (by decide) okFetch).2.2 0 2 10000 (by decide)
     (by decide) (by decide)⟩

/-!
## The enrichment loop: stability and invariants
-/

theorem cellAt_set_ne (l : List Cell) (j i : ℕ) (v : Cell) (h : i ≠ j) :
    cellAt (l.set j v) i = cellAt l i := by
  simp [cellAt, List.getD_eq_getElem?_getD, List.getElem?_set_ne (Ne.symm h)]

theorem cellAt_set_na (l : List Cell) (j : ℕ) :
    cellAt (l.set j Cell.na) j = Cell.na := by
  simp only [cellAt]
  rw [List.getD_eq_getElem?_getD, List.getElem?_set, if_pos rfl]
  split <;> rfl

/-- The loop body never modifies any column other than the four
price-derived ones. -/
theorem enrichStep_stable (fetch : String → PriceResult)
    (st : DF × List (String × PriceResult) × List String) (j : ℕ) (n : String)
    (h1 : n ≠ "Current Price (USD)") (h2 : n ≠ "Position Value (USD)")
    (h3 : n ≠ "Unrealized P/L (USD)") (h4 : n ≠ "Unrealized P/L (%)") :
    (enrichStep fetch st j).1.getCol n = st.1.getCol n := by
  simp only [enrichStep]
  split
  · rfl
  · split
    · rfl
    · split
      · exact st.1.getCol_setCell_ne _ _ _ _ h4
      · split
        · exact st.1.getCol_setCell_ne _ _ _ _ h4
        · rw [DF.getCol_setCell_ne _ _ _ _ _ h4, DF.getCol_setCell_ne _ _ _ _ _ h3,
            DF.getCol_setCell_ne _ _ _ _ _ h2, DF.getCol_setCell_ne _ _ _ _ _ h1]

/-- The cache/trace part of one loop step: a cache hit (or unrecognized
coin) leaves it unchanged; a miss appends the identifier to the trace and
caches the result only when the fetch succeeded. -/
theorem enrichStep_snd (fetch : String → PriceResult)
    (st : DF × List (String × PriceResult) × List String) (j : ℕ) :
    (enrichStep fetch st j).2 =
      match COIN_NAME_TO_ID.lookup (pyStr (cellAt (st.1.getCol "Coin Key") j)) with
      | none => st.2
      | some coin_id =>
        match st.2.1.lookup coin_id with
        | some _ => st.2
        | none =>
          (if (fetch coin_id).usd.isSome
            then (coin_id, fetch coin_id) :: st.2.1 else st.2.1,
           st.2.2 ++ [coin_id]) := by
  simp only [enrichStep]
  cases hk : COIN_NAME_TO_ID.lookup (pyStr (cellAt (st.1.getCol "Coin Key") j)) with
  | none => rfl
  | some coin_id =>
    simp only
    cases hc : st.2.1.lookup coin_id with
    | some pr =>
      simp only [hc]
      split <;> first
        | rfl
        | (split <;> first | rfl | (split <;> rfl))
    | none =>
      simp only [hc]
      split <;> first
        | rfl
        | (split <;> first | rfl | (split <;> rfl))

/-- Preservation of the C6 invariant by one loop step. -/
theorem enrichStep_inv (fetch : String → PriceResult) (E0col : List Cell)
    (st : DF × List (String × PriceResult) × List String) (j : ℕ)
    (hcb : st.1.getCol "Cost Basis (USD)" = E0col)
    (hder : ∀ i, BadCB (cellAt E0col i) → FourNa st.1 i) :
    (enrichStep fetch st j).1.getCol "Cost Basis (USD)" = E0col
    ∧ (∀ i, BadCB (cellAt E0col i) → FourNa (enrichStep fetch st j).1 i) := by
  refine ⟨by rw [enrichStep_stable fetch st j _ (by decide) (by decide) (by decide)
    (by decide)]; exact hcb, ?_⟩
  intro i hbad
  simp only [enrichStep]
  split
  · exact hder i hbad
  · split
    · exact hder i hbad
    · split
      · obtain ⟨ha, hb, hc, hd⟩ := hder i hbad
        refine ⟨?_, ?_, ?_, ?_⟩
        · rw [DF.getCol_setCell_ne _ _ _ _ _ (by decide)]; exact ha
        · rw [DF.getCol_setCell_ne _ _ _ _ _ (by decide)]; exact hb
        · rw [DF.getCol_setCell_ne _ _ _ _ _ (by decide)]; exact hc
        · rw [DF.getCol_setCell_self]
          by_cases hij : i = j
          · subst hij; exact cellAt_set_na _ _
          · rw [cellAt_set_ne _ _ _ _ hij]; exact hd
      case h_2 cbq hcbq =>
        split
        case isTrue hz =>
          obtain ⟨ha, hb, hc, hd⟩ := hder i hbad
          refine ⟨?_, ?_, ?_, ?_⟩
          · rw [DF.getCol_setCell_ne _ _ _ _ _ (by decide)]; exact ha
          · rw [DF.getCol_setCell_ne _ _ _ _ _ (by decide)]; exact hb
          · rw [DF.getCol_setCell_ne _ _ _ _ _ (by decide)]; exact hc
          · rw [DF.getCol_setCell_self]
            by_cases hij : i = j
            · subst hij; exact cellAt_set_na _ _
            · rw [cellAt_set_ne _ _ _ _ hij]; exact hd
        case isFalse hz =>
          have hij : i ≠ j := by
            intro hij
            subst hij
            rw [hcb] at hcbq
            rcases hbad with hb1 | hb1
            · rw [hb1] at hcbq; cases hcbq
            · rw [hb1] at hcbq
              have : cbq = 0 := by
                have := hcbq
                injection this with h'
                exact h'.symm
              exact hz this
          obtain ⟨ha, hb, hc, hd⟩ := hder i hbad
          refine ⟨?_, ?_, ?_, ?_⟩
          · rw [DF.getCol_setCell_ne _ _ _ _ _ (by decide),
              DF.getCol_setCell_ne _ _ _ _ _ (by decide),
              DF.getCol_setCell_ne _ _ _ _ _ (by decide), DF.getCol_setCell_self,
              cellAt_set_ne _ _ _ _ hij]
            exact ha
          · rw [DF.getCol_setCell_ne _ _ _ _ _ (by decide),
              DF.getCol_setCell_ne _ _ _ _ _ (by decide), DF.getCol_setCell_self,
              cellAt_set_ne _ _ _ _ hij, DF.getCol_setCell_ne _ _ _ _ _ (by decide)]
            exact hb
          · rw [DF.getCol_setCell_ne _ _ _ _ _ (by decide), DF.getCol_setCell_self,
              cellAt_set_ne _ _ _ _ hij, DF.getCol_setCell_ne _ _ _ _ _ (by decide),
              DF.getCol_setCell_ne _ _ _ _ _ (by decide)]
            exact hc
          · rw [DF.getCol_setCell_self, cellAt_set_ne _ _ _ _ hij,
              DF.getCol_setCell_ne _ _ _ _ _ (by decide),
              DF.getCol_setCell_ne _ _ _ _ _ (by decide),
              DF.getCol_setCell_ne _ _ _ _ _ (by decide)]
            exact hd

theorem tuple_fst_getCol (d : DF) (c : List (String × PriceResult))
    (t : List String) (n : String) :
    ((d, c, t) : DF × List (String × PriceResult) × List String).1.getCol n
      = d.getCol n := rfl

theorem foldl_enrich_inv (fetch : String → PriceResult) (E0col : List Cell) :
    ∀ (L : List ℕ) (st : DF × List (String × PriceResult) × List String),
      st.1.getCol "Cost Basis (USD)" = E0col →
      (∀ i, BadCB (cellAt E0col i) → FourNa st.1 i) →
      (L.foldl (enrichStep fetch) st).1.getCol "Cost Basis (USD)" = E0col
      ∧ ∀ i, BadCB (cellAt E0col i) → FourNa (L.foldl (enrichStep fetch) st).1 i := by
  intro L
  induction L with
  | nil => intro st h1 h2; exact ⟨h1, h2⟩
  | cons j t ih =>
    intro st h1 h2
    rw [List.foldl_cons]
    obtain ⟨h1', h2'⟩ := enrichStep_inv fetch E0col st j h1 h2
    exact ih _ h1' h2'

/-!
## Claim C6: a null or zero cost basis blocks all derived fields
-/

set_option maxHeartbeats 1000000 in
/-- C6: for every record whose computed cost basis is null, zero, or not a
number, the enricher leaves all four price-derived fields null — whatever
the price collaborator returns, so in particular even when its lookup for
that record succeeds; no division by the bad cost basis is ever taken. -/
theorem claim6_bad_cost_basis_nulls (df : DF) ( _hin : EnrichInput df)
    (fetch : String → PriceResult) (i : ℕ)
    (hbad : BadCB (cellAt ((enrich df false fetch).1.getCol "Cost Basis (USD)") i)) :
    FourNa (enrich df false fetch).1 i := by
  have hout : (enrich df false fetch).1 =
      (enrichLoop fetch df).1.removeCol "Coin Key" := rfl
  have hinv := foldl_enrich_inv fetch ((enrichInit df).getCol "Cost Basis (USD)")
    (List.range df.nrows) (enrichInit df, [], [])
    (tuple_fst_getCol (enrichInit df) [] [] "Cost Basis (USD)")
    (fun i hb => by
      refine ⟨?_, ?_, ?_, ?_⟩
      · rw [tuple_fst_getCol,
          getCol_enrichInit_na df "Current Price (USD)" (by simp), cellAt_replicate]
      · rw [tuple_fst_getCol,
          getCol_enrichInit_na df "Position Value (USD)" (by simp), cellAt_replicate]
      · rw [tuple_fst_getCol,
          getCol_enrichInit_na df "Unrealized P/L (USD)" (by simp), cellAt_replicate]
      · rw [tuple_fst_getCol,
          getCol_enrichInit_na df "Unrealized P/L (%)" (by simp), cellAt_replicate])
  rw [show (List.range df.nrows).foldl (enrichStep fetch) (enrichInit df, [], [])
    = enrichLoop fetch df from rfl] at hinv
  have hcbcol : (enrich df false fetch).1.getCol "Cost Basis (USD)" =
      (enrichInit df).getCol "Cost Basis (USD)" := by
    rw [hout, DF.getCol_removeCol_ne _ _ _ (by decide)]
    exact hinv.1
  rw [hcbcol] at hbad
  have h4 := hinv.2 i hbad
  obtain ⟨ha, hb, hc, hd⟩ := h4
  refine ⟨?_, ?_, ?_, ?_⟩ <;>
    rw [hout, DF.getCol_removeCol_ne _ _ _ (by decide)]
  · exact ha
  · exact hb
  · exact hc
  · exact hd

set_option maxHeartbeats 1000000 in
/-- Witness for C6: a row with quantity 0 (hence cost basis 0) and a
successful price lookup keeps all derived fields null. -/
theorem claim6_bad_cost_basis_nulls_witness :
    BadCB (cellAt ((enrich witC6df false okFetch).1.getCol "Cost Basis (USD)") 0)
    ∧ FourNa (enrich witC6df false okFetch).1 0 :=
  ⟨by decide, claim6_bad_cost_basis_nulls witC6df (by decide) okFetch 0 (by decide)⟩

/-!
## Claim C3: the per-run price cache
-/

set_option maxHeartbeats 1000000 in
/-- C3 counterexample: two records of the same coin under a collaborator
whose lookups fail.  Each record triggers its own live lookup (the source
caches only successes), so the identifier is fetched twice — refuting
"at most one invocation per identifier, failure results reused". -/
theorem claim3_cex :
    (enrich cexC3df false failFetch).2 = ["bitcoin", "bitcoin"]
    ∧ ¬ List.count "bitcoin" (enrich cexC3df false failFetch).2 ≤ 1 := by
  decide

theorem foldl_count_inv (fetch : String → PriceResult) (ident : String)
    (hs : (fetch ident).usd.isSome = true) :
    ∀ (L : List ℕ) (st : DF × List (String × PriceResult) × List String),
      List.count ident st.2.2 ≤ 1 →
      (ident ∈ st.2.2 → st.2.1.lookup ident ≠ none) →
      List.count ident (L.foldl (enrichStep fetch) st).2.2 ≤ 1
      ∧ (ident ∈ (L.foldl (enrichStep fetch) st).2.2 →
          (L.foldl (enrichStep fetch) st).2.1.lookup ident ≠ none) := by
  intro L
  induction L with
  | nil => intro st h1 h2; exact ⟨h1, h2⟩
  | cons j t ih =>
    intro st h1 h2
    rw [List.foldl_cons]
    apply ih
    · rw [enrichStep_snd]
      split
      · exact h1
      next ok1 coin_id hk =>
        split
        · exact h1
        next opr hc =>
          show List.count ident (st.2.2 ++ [coin_id]) ≤ 1
          by_cases hid : coin_id = ident
          · subst hid
            have hnot : coin_id ∉ st.2.2 := fun hmem => h2 hmem hc
            have hcount : List.count coin_id st.2.2 = 0 :=
              List.count_eq_zero.mpr hnot
            simp [List.count_append, hcount]
          · have hne : ¬ (coin_id == ident) = true := by
              simp only [beq_iff_eq]
              exact hid
            rw [List.count_append, List.count_singleton, if_neg hne, Nat.add_zero]
            exact h1
    · rw [enrichStep_snd]
      split
      · exact h2
      next ok1 coin_id hk =>
        split
        · exact h2
        next opr hc =>
          intro hmem
          show (if (fetch coin_id).usd.isSome = true
              then (coin_id, fetch coin_id) :: st.2.1 else st.2.1).lookup ident ≠ none
          have hmem' : ident ∈ st.2.2 ++ [coin_id] := hmem
          by_cases hid : coin_id = ident
          · subst hid
            rw [if_pos hs, List.lookup_cons]
            simp
          · rw [List.mem_append] at hmem'
            rcases hmem' with hm | hm
            · have hl := h2 hm
              split
              · rw [List.lookup_cons]
                have hne : ¬ (ident == coin_id) = true := by
                  simp only [beq_iff_eq]
                  exact fun hh => hid hh.symm
                simp only [hne]
                exact hl
              · exact hl
            · simp only [List.mem_singleton] at hm
              exact absurd hm.symm hid

/-- C3 amended: within one run, any identifier whose live lookup succeeds
is fetched at most once — the successful result is cached and reused for
every later record with the same identifier.  (Failed lookups are not
cached and are retried per record, as the counterexample shows.) -/
theorem claim3_successful_lookup_cached (df : DF) ( _hin : EnrichInput df)
    (fetch : String → PriceResult) (ident : String)
    (hs : (fetch ident).usd.isSome = true) :
    List.count ident (enrich df false fetch).2 ≤ 1 := by
  have hout : (enrich df false fetch).2 = (enrichLoop fetch df).2.2 := rfl
  rw [hout]
  exact (foldl_count_inv fetch ident hs (List.range df.nrows)
    (enrichInit df, [], []) (by simp) (by intro h; cases h)).1

/-- Witness for the amended C3: two records of the same coin under an
always-succeeding collaborator trigger at most one fetch. -/
theorem claim3_successful_lookup_cached_witness :
    List.count "bitcoin" (enrich cexC3df false okFetch).2 ≤ 1 :=
  claim3_successful_lookup_cached cexC3df (by decide) okFetch "bitcoin" (by decide)

/-- Witness for the amended C5 at the concrete two-column frame. -/
theorem claim5_total_cost_propagates_witness :
    cellAt ((normalize_headers cexC5df).getCol "TotalCostUSD") 0 =
      cellAdd
        (cellMul (cellAt ((normalize_headers cexC5df).getCol "Quantity") 0)
          (cellAt ((normalize_headers cexC5df).getCol "Cost per Coin (USD)") 0))
        (cellAt ((normalize_headers cexC5df).getCol "FeesUSD") 0) :=
  (claim5_total_cost_propagates cexC5df (by decide) 0 (by decide)).1

/-!
## Claim C9: the TOTAL row of the Aggregator
-/

theorem sumBelow_map_num (qs : List ℚ) (rest : List Cell) :
    ∀ n, n ≤ qs.length → sumBelow (qs.map Cell.num ++ rest) n = (qs.take n).sum := by
  intro n
  induction n with
  | zero => intro _; rfl
  | succ m ih =>
    intro h
    have hm : m ≤ qs.length := Nat.le_of_succ_le h
    have hmlt : m < qs.length := h
    unfold sumBelow at *
    rw [List.range_succ, List.foldl_append, ih hm]
    have hcell : cellAt (qs.map Cell.num ++ rest) m = Cell.num qs[m] := by
      rw [cellAt, List.getD_eq_getElem?_getD, List.getElem?_append]
      rw [if_pos (by simpa using hmlt)]
      simp [List.getElem?_map, List.getElem?_eq_getElem hmlt]
    rw [List.foldl_cons, List.foldl_nil, hcell]
    show (List.take m qs).sum + (cellNum? (Cell.num qs[m])).getD 0
      = (List.take (m + 1) qs).sum
    rw [List.take_succ, List.sum_append]
    simp [List.getElem?_eq_getElem hmlt, cellNum?]

theorem cellAt_append_at_len (A : List Cell) (c : Cell) (rest : List Cell) :
    cellAt (A ++ c :: rest) A.length = c := by
  rw [cellAt, List.getD_eq_getElem?_getD, List.getElem?_append,
    if_neg (lt_irrefl A.length), Nat.sub_self, List.getElem?_cons_zero]
  rfl

/-- Reading one column out of a literal frame. -/
theorem getCol_mk_cons (r : ℕ) (a : String) (ca : List Cell)
    (rest : List (String × List Cell)) (n : String) :
    DF.getCol ⟨r, (a, ca) :: rest⟩ n = if a = n then ca else DF.getCol ⟨r, rest⟩ n := by
  simp only [DF.getCol, List.find?_cons]
  by_cases h : a = n <;> simp [h]

/-- The cell content of one summed output column at the TOTAL index. -/
theorem total_col (qs : List ℚ) (k : ℕ) (hk : k = qs.length) :
    cellAt (qs.map Cell.num ++ [Cell.num qs.sum]) k
      = Cell.num (sumBelow (qs.map Cell.num ++ [Cell.num qs.sum]) k) := by
  have h1 : cellAt ((qs.map Cell.num) ++ [Cell.num qs.sum])
      ((qs.map Cell.num).length) = Cell.num qs.sum :=
    cellAt_append_at_len _ _ []
  rw [List.length_map] at h1
  rw [hk, h1, sumBelow_map_num qs _ qs.length (le_refl _), List.take_length]

theorem summarize_nrows (df : DF) :
    (summarize df).nrows = (sumKeys df).length + 1 := rfl

theorem summarize_getCol_coin (df : DF) :
    (summarize df).getCol "Coin Type" = sumKeys df ++ [Cell.str "TOTAL"] := by
  simp only [summarize, getCol_mk_cons]
  rw [if_pos trivial]

theorem summarize_getCol_qty (df : DF) :
    (summarize df).getCol "Quantity"
      = (groupCol df "Quantity").map Cell.num
        ++ [Cell.num (groupCol df "Quantity").sum] := by
  simp only [summarize, getCol_mk_cons]
  rw [if_pos trivial, if_neg (by decide)]

theorem summarize_getCol_cb (df : DF) :
    (summarize df).getCol "Cost_Basis_USD"
      = (groupCol df "Cost Basis (USD)").map Cell.num
        ++ [Cell.num (groupCol df "Cost Basis (USD)").sum] := by
  simp only [summarize, getCol_mk_cons]
  rw [if_pos trivial, if_neg (by decide), if_neg (by decide)]

theorem summarize_getCol_pv (df : DF) :
    (summarize df).getCol "Position_Value_USD"
      = (groupCol df "Position Value (USD)").map Cell.num
        ++ [Cell.num (groupCol df "Position Value (USD)").sum] := by
  simp only [summarize, getCol_mk_cons]
  rw [if_pos trivial, if_neg (by decide), if_neg (by decide), if_neg (by decide)]

theorem summarize_getCol_pl (df : DF) :
    (summarize df).getCol "Unrealized_PL_USD"
      = (groupCol df "Unrealized P/L (USD)").map Cell.num
        ++ [Cell.num (groupCol df "Unrealized P/L (USD)").sum] := by
  simp only [summarize, getCol_mk_cons]
  rw [if_pos trivial, if_neg (by decide), if_neg (by decide), if_neg (by decide),
    if_neg (by decide)]

theorem groupCol_length (df : DF) (c : String) :
    (groupCol df c).length = (sumKeys df).length := by
  simp [groupCol]

/-- C9: in the Aggregator's output, the final row is labeled TOTAL and in
each of the four summed columns its value equals the sum of the values of
all preceding (non-TOTAL) rows, nulls counted as zero. -/
theorem claim9_total_row (df : DF) :
    1 ≤ (summarize df).nrows
    ∧ cellAt ((summarize df).getCol "Coin Type") ((summarize df).nrows - 1)
        = Cell.str "TOTAL"
    ∧ cellAt ((summarize df).getCol "Quantity") ((summarize df).nrows - 1)
        = Cell.num (sumBelow ((summarize df).getCol "Quantity")
            ((summarize df).nrows - 1))
    ∧ cellAt ((summarize df).getCol "Cost_Basis_USD") ((summarize df).nrows - 1)
        = Cell.num (sumBelow ((summarize df).getCol "Cost_Basis_USD")
            ((summarize df).nrows - 1))
    ∧ cellAt ((summarize df).getCol "Position_Value_USD") ((summarize df).nrows - 1)
        = Cell.num (sumBelow ((summarize df).getCol "Position_Value_USD")
            ((summarize df).nrows - 1))
    ∧ cellAt ((summarize df).getCol "Unrealized_PL_USD") ((summarize df).nrows - 1)
        = Cell.num (sumBelow ((summarize df).getCol "Unrealized_PL_USD")
            ((summarize df).nrows - 1)) := by
  refine ⟨?_, ?_, ?_, ?_, ?_, ?_⟩
  · rw [summarize_nrows]
    exact Nat.le_add_left 1 _
  · rw [summarize_getCol_coin, summarize_nrows, Nat.add_sub_cancel]
    exact cellAt_append_at_len _ _ []
  · rw [summarize_getCol_qty, summarize_nrows, Nat.add_sub_cancel]
    exact total_col _ _ (groupCol_length df _).symm
  · rw [summarize_getCol_cb, summarize_nrows, Nat.add_sub_cancel]
    exact total_col _ _ (groupCol_length df _).symm
  · rw [summarize_getCol_pv, summarize_nrows, Nat.add_sub_cancel]
    exact total_col _ _ (groupCol_length df _).symm
  · rw [summarize_getCol_pl, summarize_nrows, Nat.add_sub_cancel]
    exact total_col _ _ (groupCol_length df _).symm


/-!
## Claim C4: the Aggregator's grouping and row order
-/

theorem listLexLe_total : ∀ u v : List Char,
    listLexLe u v = true ∨ listLexLe v u = true := by
  intro u
  induction u with
  | nil => intro v; exact Or.inl rfl
  | cons a as ih =>
    intro v
    cases v with
    | nil => exact Or.inr rfl
    | cons b bs =>
      unfold listLexLe
      by_cases h1 : a.toNat < b.toNat
      · left
        rw [if_pos h1]
      · by_cases h2 : b.toNat < a.toNat
        · right
          rw [if_pos h2]
        · rw [if_neg h1, if_neg h2, if_neg h2, if_neg h1]
          exact ih bs

theorem listLexLe_trans : ∀ u v w : List Char,
    listLexLe u v = true → listLexLe v w = true → listLexLe u w = true := by
  intro u
  induction u with
  | nil => intro v w _ _; rfl
  | cons a as ih =>
    intro v w huv hvw
    cases v with
    | nil => cases huv
    | cons b bs =>
      cases w with
      | nil => cases hvw
      | cons c cs =>
        unfold listLexLe at huv hvw ⊢
        split_ifs at huv hvw ⊢ <;>
          first
            | rfl
            | (exact ih bs cs huv hvw)
            | (exact absurd huv (by decide))
            | (exact absurd hvw (by decide))
            | (exfalso; omega)

theorem cellLeB_total (a b : Cell) : cellLeB a b = true ∨ cellLeB b a = true := by
  cases a <;> cases b <;> simp [cellLeB]
  · exact le_total _ _
  · exact listLexLe_total _ _

theorem cellLeB_trans (a b c : Cell) (hab : cellLeB a b = true)
    (hbc : cellLeB b c = true) : cellLeB a c = true := by
  cases a <;> cases b <;> cases c <;> simp_all [cellLeB]
  · exact le_trans hab hbc
  · exact listLexLe_trans _ _ _ hab hbc

theorem insertCell_perm (a : Cell) : ∀ l, (insertCell a l).Perm (a :: l) := by
  intro l
  induction l with
  | nil => exact List.Perm.refl _
  | cons b bs ih =>
    unfold insertCell
    split
    · exact List.Perm.refl _
    · exact (List.Perm.cons b ih).trans (List.Perm.swap a b bs)

theorem sortCells_perm : ∀ l, (sortCells l).Perm l := by
  intro l
  induction l with
  | nil => exact List.Perm.refl _
  | cons a as ih =>
    exact (insertCell_perm a (sortCells as)).trans (List.Perm.cons a ih)

theorem mem_insertCell (x a : Cell) (l : List Cell) :
    x ∈ insertCell a l ↔ x = a ∨ x ∈ l := by
  rw [(insertCell_perm a l).mem_iff, List.mem_cons]

theorem insertCell_pairwise (a : Cell) :
    ∀ l, List.Pairwise (fun x y => cellLeB x y = true) l →
      List.Pairwise (fun x y => cellLeB x y = true) (insertCell a l) := by
  intro l
  induction l with
  | nil =>
    intro _
    exact List.Pairwise.cons (fun y hy => absurd hy (List.not_mem_nil y))
      List.Pairwise.nil
  | cons b bs ih =>
    intro hl
    unfold insertCell
    split
    case isTrue hab =>
      refine List.Pairwise.cons ?_ hl
      intro y hy
      rcases List.mem_cons.mp hy with rfl | hy'
      · exact hab
      · exact cellLeB_trans a b y hab (List.rel_of_pairwise_cons hl hy')
    case isFalse hab =>
      have hba : cellLeB b a = true := by
        rcases cellLeB_total a b with h | h
        · exact absurd h hab
        · exact h
      refine List.Pairwise.cons ?_ (ih (List.Pairwise.of_cons hl))
      intro y hy
      rcases (mem_insertCell y a bs).mp hy with rfl | hy'
      · exact hba
      · exact List.rel_of_pairwise_cons hl hy'

theorem sortCells_pairwise :
    ∀ l, List.Pairwise (fun x y => cellLeB x y = true) (sortCells l) := by
  intro l
  induction l with
  | nil => simp [sortCells]
  | cons a as ih => exact insertCell_pairwise a _ ih

theorem dedupCells_aux_nodup (l : List Cell) :
    ∀ acc : List Cell, acc.Nodup →
      (l.foldl (fun acc c => if c ∈ acc then acc else acc ++ [c]) acc).Nodup := by
  induction l with
  | nil => intro acc h; exact h
  | cons x t ih =>
    intro acc h
    rw [List.foldl_cons]
    apply ih
    by_cases hx : x ∈ acc
    · rw [if_pos hx]; exact h
    · rw [if_neg hx]
      exact List.Nodup.append h (List.nodup_singleton x)
        (by simpa [List.disjoint_singleton] using hx)

theorem dedupCells_nodup (l : List Cell) : (dedupCells l).Nodup :=
  dedupCells_aux_nodup l [] List.nodup_nil

/-!
## Reading columns through the coercion pass of `summarize`
-/

theorem DF.getCol_nil_of_not_hasCol (df : DF) (n : String) (h : ¬ df.hasCol n) :
    df.getCol n = [] := by
  obtain ⟨r, l⟩ := df
  simp only [DF.getCol]
  have hf : l.find? (fun p => p.1 = n) = none := by
    rw [List.find?_eq_none]
    intro p hp
    simp only [DF.hasCol, DF.colNames, List.mem_map] at h
    simpa using fun hpn => h ⟨p, hp, hpn⟩
  rw [hf]

theorem nrows_coerce_fold (L : List String) :
    ∀ df : DF, (L.foldl (fun d c =>
      if d.hasCol c then d.mapCol c toNumericCell else d) df).nrows = df.nrows := by
  induction L with
  | nil => intro df; rfl
  | cons a t ih =>
    intro df
    rw [List.foldl_cons, ih]
    show (if df.hasCol a then df.mapCol a toNumericCell else df).nrows = df.nrows
    split
    · exact df.nrows_mapCol _ _
    · rfl

theorem getCol_coerce_fold_ne (L : List String) :
    ∀ (df : DF) (c : String), c ∉ L →
      (L.foldl (fun d c => if d.hasCol c then d.mapCol c toNumericCell else d)
        df).getCol c = df.getCol c := by
  induction L with
  | nil => intro df c _; rfl
  | cons a t ih =>
    intro df c hc
    rw [List.foldl_cons, ih _ c (fun h => hc (List.mem_cons_of_mem _ h))]
    show (if df.hasCol a then df.mapCol a toNumericCell else df).getCol c = df.getCol c
    split
    · exact df.getCol_mapCol_ne _ _ _ (fun h => hc (h ▸ List.mem_cons_self _ _))
    · rfl

theorem getCol_coerce_step (df : DF) (a : String) :
    (if df.hasCol a then df.mapCol a toNumericCell else df).getCol a
      = (df.getCol a).map toNumericCell := by
  split
  case isTrue h => exact df.getCol_mapCol_self _ _
  case isFalse h =>
    rw [df.getCol_nil_of_not_hasCol a h]
    rfl

theorem getCol_coerce_fold (L : List String) :
    ∀ (df : DF) (c : String), c ∈ L → L.Nodup →
      (L.foldl (fun d c => if d.hasCol c then d.mapCol c toNumericCell else d)
        df).getCol c = (df.getCol c).map toNumericCell := by
  induction L with
  | nil => intro df c h _; cases h
  | cons a t ih =>
    intro df c hc hnd
    rcases List.mem_cons.mp hc with rfl | hc'
    · rw [List.foldl_cons,
        getCol_coerce_fold_ne t _ c (by exact (List.nodup_cons.mp hnd).1)]
      exact getCol_coerce_step df c
    · rw [List.foldl_cons, ih _ c hc' (List.nodup_cons.mp hnd).2]
      show ((if df.hasCol a then df.mapCol a toNumericCell else df).getCol c).map
        toNumericCell = (df.getCol c).map toNumericCell
      have hca : c ≠ a := fun h => (List.nodup_cons.mp hnd).1 (h ▸ hc')
      split
      · rw [df.getCol_mapCol_ne _ _ _ hca]
      · rfl

theorem nrows_sumCoerce (df : DF) : (sumCoerce df).nrows = df.nrows :=
  nrows_coerce_fold _ df

theorem sumCoerce_getCol_coin (df : DF) :
    (sumCoerce df).getCol "Coin Type" = df.getCol "Coin Type" := by
  unfold sumCoerce
  exact getCol_coerce_fold_ne NUMERIC_SUMMARY df "Coin Type" (by decide)

theorem coinCells_eq_raw (df : DF) :
    coinCells df
      = (List.range df.nrows).map (fun i => cellAt (df.getCol "Coin Type") i) := by
  unfold coinCells
  rw [nrows_sumCoerce, sumCoerce_getCol_coin]

theorem sumCoerce_getCol_num (df : DF) (c : String) (hc : c ∈ NUMERIC_SUMMARY) :
    (sumCoerce df).getCol c = (df.getCol c).map toNumericCell :=
  getCol_coerce_fold NUMERIC_SUMMARY df c hc (by decide)

set_option maxHeartbeats 1000000 in
/-- C4 counterexample: with input rows XRP then BTC, the first summary
group row is BTC — pandas `groupby` sorts the group keys, so the groups
are NOT emitted in first-seen input order (which would put XRP first). -/
theorem claim4_cex :
    cellAt (cexC4df.getCol "Coin Type") 0 = Cell.str "XRP"
    ∧ (summarize cexC4df).getCol "Coin Type"
        = [Cell.str "BTC", Cell.str "XRP", Cell.str "TOTAL"] := by
  decide

/-- C4 amended: the Aggregator groups rows by the raw `Coin Type` value
(not the normalized key), sums quantity, cost basis, position value and
unrealized P/L per group with null treated as zero, and emits one group
row per distinct raw value — in ascending sorted order of the raw label,
not first-seen order — followed by exactly one final TOTAL row. -/
theorem claim4_sorted_groups (df : DF)
    ( _hstr : ∀ i, i < df.nrows →
      isStrB (cellAt (df.getCol "Coin Type") i) = true) :
    (summarize df).getCol "Coin Type" = sortCells (dedupCells ((List.range df.nrows).map (fun i => cellAt (df.getCol "Coin Type") i))) ++ [Cell.str "TOTAL"]
    ∧ List.Pairwise (fun x y => cellLeB x y = true) (sortCells (dedupCells ((List.range df.nrows).map (fun i => cellAt (df.getCol "Coin Type") i))))
    ∧ (sortCells (dedupCells ((List.range df.nrows).map (fun i => cellAt (df.getCol "Coin Type") i)))).Perm (dedupCells ((List.range df.nrows).map (fun i => cellAt (df.getCol "Coin Type") i)))
    ∧ (dedupCells ((List.range df.nrows).map (fun i => cellAt (df.getCol "Coin Type") i))).Nodup
    ∧ (summarize df).getCol "Quantity"
        = (sortCells (dedupCells ((List.range df.nrows).map (fun i => cellAt (df.getCol "Coin Type") i)))).map (fun k => Cell.num (groupSum ((List.range df.nrows).map (fun i => cellAt (df.getCol "Coin Type") i))
            ((df.getCol "Quantity").map toNumericCell) df.nrows k))
          ++ [Cell.num ((sortCells (dedupCells ((List.range df.nrows).map (fun i => cellAt (df.getCol "Coin Type") i)))).map (fun k => groupSum ((List.range df.nrows).map (fun i => cellAt (df.getCol "Coin Type") i)) ((df.getCol "Quantity").map toNumericCell) df.nrows k)).sum]
    ∧ (summarize df).getCol "Cost_Basis_USD"
        = (sortCells (dedupCells ((List.range df.nrows).map (fun i => cellAt (df.getCol "Coin Type") i)))).map (fun k => Cell.num (groupSum ((List.range df.nrows).map (fun i => cellAt (df.getCol "Coin Type") i))
            ((df.getCol "Cost Basis (USD)").map toNumericCell) df.nrows k))
          ++ [Cell.num ((sortCells (dedupCells ((List.range df.nrows).map (fun i => cellAt (df.getCol "Coin Type") i)))).map (fun k => groupSum ((List.range df.nrows).map (fun i => cellAt (df.getCol "Coin Type") i)) ((df.getCol "Cost Basis (USD)").map toNumericCell) df.nrows k)).sum]
    ∧ (summarize df).getCol "Position_Value_USD"
        = (sortCells (dedupCells ((List.range df.nrows).map (fun i => cellAt (df.getCol "Coin Type") i)))).map (fun k => Cell.num (groupSum ((List.range df.nrows).map (fun i => cellAt (df.getCol "Coin Type") i))
            ((df.getCol "Position Value (USD)").map toNumericCell) df.nrows k))
          ++ [Cell.num ((sortCells (dedupCells ((List.range df.nrows).map (fun i => cellAt (df.getCol "Coin Type") i)))).map (fun k => groupSum ((List.range df.nrows).map (fun i => cellAt (df.getCol "Coin Type") i)) ((df.getCol "Position Value (USD)").map toNumericCell) df.nrows k)).sum]
    ∧ (summarize df).getCol "Unrealized_PL_USD"
        = (sortCells (dedupCells ((List.range df.nrows).map (fun i => cellAt (df.getCol "Coin Type") i)))).map (fun k => Cell.num (groupSum ((List.range df.nrows).map (fun i => cellAt (df.getCol "Coin Type") i))
            ((df.getCol "Unrealized P/L (USD)").map toNumericCell) df.nrows k))
          ++ [Cell.num ((sortCells (dedupCells ((List.range df.nrows).map (fun i => cellAt (df.getCol "Coin Type") i)))).map (fun k => groupSum ((List.range df.nrows).map (fun i => cellAt (df.getCol "Coin Type") i)) ((df.getCol "Unrealized P/L (USD)").map toNumericCell) df.nrows k)).sum]
    := by
  refine ⟨?_, ?_, ?_, ?_, ?_, ?_, ?_, ?_⟩
  · rw [summarize_getCol_coin]
    simp only [sumKeys, coinCells_eq_raw]
  · exact sortCells_pairwise _
  · rw [← coinCells_eq_raw]
    exact sortCells_perm _
  · rw [← coinCells_eq_raw]
    exact dedupCells_nodup _
  · rw [summarize_getCol_qty]
    simp only [groupCol, sumKeys, coinCells_eq_raw,
      sumCoerce_getCol_num df "Quantity" (by decide), nrows_sumCoerce]
    rw [List.map_map]
    rfl
  · rw [summarize_getCol_cb]
    simp only [groupCol, sumKeys, coinCells_eq_raw,
      sumCoerce_getCol_num df "Cost Basis (USD)" (by decide), nrows_sumCoerce]
    rw [List.map_map]
    rfl
  · rw [summarize_getCol_pv]
    simp only [groupCol, sumKeys, coinCells_eq_raw,
      sumCoerce_getCol_num df "Position Value (USD)" (by decide), nrows_sumCoerce]
    rw [List.map_map]
    rfl
  · rw [summarize_getCol_pl]
    simp only [groupCol, sumKeys, coinCells_eq_raw,
      sumCoerce_getCol_num df "Unrealized P/L (USD)" (by decide), nrows_sumCoerce]
    rw [List.map_map]
    rfl

/-- Witness for the amended C4 at the concrete two-coin frame. -/
theorem claim4_sorted_groups_witness :
    (summarize cexC4df).getCol "Coin Type"
      = sortCells (dedupCells ((List.range cexC4df.nrows).map
          (fun i => cellAt (cexC4df.getCol "Coin Type") i)))
        ++ [Cell.str "TOTAL"] :=
  (claim4_sorted_groups cexC4df (by decide)).1

/-!
## Claim C8, stage 1: the label normalizer is idempotent
-/

theorem toNumericCell_idem (c : Cell) : toNumericCell (toNumericCell c) = toNumericCell c := by
  cases c with
  | na => rfl
  | num q => rfl
  | str s =>
    cases h : parseDec s <;> simp [toNumericCell, h]

theorem upper_lower_props : ∀ p ∈ UPPER_LOWER,
    isWS p.1 = false ∧ isWS p.2 = false ∧ isZW p.2 = false
    ∧ p.2 ≠ '_' ∧ p.2 ≠ '-' := by decide

theorem lowerChar_cases (c : Char) :
    lowerChar c = c ∨ ∃ p ∈ UPPER_LOWER, c = p.1 ∧ lowerChar c = p.2 := by
  unfold lowerChar
  cases h : UPPER_LOWER.lookup c with
  | none => left; rfl
  | some v =>
    right
    exact ⟨(c, v), lookup_mem_pair _ _ _ h, rfl, rfl⟩

theorem isWS_lowerChar (c : Char) : isWS (lowerChar c) = isWS c := by
  rcases lowerChar_cases c with h | ⟨p, hp, rfl, h⟩
  · rw [h]
  · rw [h, (upper_lower_props p hp).1, (upper_lower_props p hp).2.1]

theorem isZW_lowerChar (c : Char) (hc : isZW c = false) :
    isZW (lowerChar c) = false := by
  rcases lowerChar_cases c with h | ⟨p, hp, rfl, h⟩
  · rw [h, hc]
  · rw [h, (upper_lower_props p hp).2.2.1]

theorem dash_lowerChar (c : Char) (h1 : c ≠ '_') (h2 : c ≠ '-') :
    lowerChar c ≠ '_' ∧ lowerChar c ≠ '-' := by
  rcases lowerChar_cases c with h | ⟨p, hp, rfl, h⟩
  · rw [h]; exact ⟨h1, h2⟩
  · rw [h]; exact ⟨(upper_lower_props p hp).2.2.2.1, (upper_lower_props p hp).2.2.2.2⟩

theorem dashUnd_ne (c : Char) : dashUnd c ≠ '_' ∧ dashUnd c ≠ '-' := by
  unfold dashUnd
  split
  · exact ⟨by decide, by decide⟩
  case isFalse h =>
    simp only [Bool.or_eq_true, decide_eq_true_eq, not_or] at h
    exact ⟨h.1, h.2⟩

theorem mem_collapseAux :
    ∀ (l : List Char) (b : Bool) (c : Char), c ∈ collapseAux b l → c = ' ' ∨ c ∈ l := by
  intro l
  induction l with
  | nil => intro b c h; cases h
  | cons x xs ih =>
    intro b c h
    unfold collapseAux at h
    by_cases hx : isWS x = true
    · rw [if_pos hx] at h
      cases b with
      | true =>
        simp only [if_pos trivial] at h
        rcases ih true c h with h' | h'
        · exact Or.inl h'
        · exact Or.inr (List.mem_cons_of_mem _ h')
      | false =>
        simp only [Bool.false_eq_true, if_neg] at h
        rcases List.mem_cons.mp h with rfl | h'
        · exact Or.inl rfl
        · rcases ih true c h' with h'' | h''
          · exact Or.inl h''
          · exact Or.inr (List.mem_cons_of_mem _ h'')
    · rw [if_neg hx] at h
      rcases List.mem_cons.mp h with rfl | h'
      · exact Or.inr (List.mem_cons_self _ _)
      · rcases ih false c h' with h'' | h''
        · exact Or.inl h''
        · exact Or.inr (List.mem_cons_of_mem _ h'')

theorem collapseAux_chars :
    ∀ (l : List Char) (b : Bool) (c : Char), c ∈ collapseAux b l →
      c = ' ' ∨ isWS c = false := by
  intro l
  induction l with
  | nil => intro b c h; cases h
  | cons x xs ih =>
    intro b c h
    unfold collapseAux at h
    by_cases hx : isWS x = true
    · rw [if_pos hx] at h
      cases b with
      | true =>
        simp only [if_pos trivial] at h
        exact ih true c h
      | false =>
        simp only [Bool.false_eq_true, if_neg] at h
        rcases List.mem_cons.mp h with rfl | h'
        · exact Or.inl rfl
        · exact ih true c h'
    · rw [if_neg hx] at h
      rcases List.mem_cons.mp h with rfl | h'
      · exact Or.inr (by simpa using hx)
      · exact ih false c h'

theorem collapseAux_true_head :
    ∀ (l : List Char) (c : Char) (cs : List Char),
      collapseAux true l = c :: cs → isWS c = false := by
  intro l
  induction l with
  | nil => intro c cs h; cases h
  | cons x xs ih =>
    intro c cs h
    unfold collapseAux at h
    by_cases hx : isWS x = true
    · rw [if_pos hx] at h
      simp only [if_pos trivial] at h
      exact ih c cs h
    · rw [if_neg hx] at h
      cases h
      simpa using hx


theorem collapseAux_chain :
    ∀ (l : List Char) (b : Bool),
      List.Chain' (fun a c => ¬(isWS a = true ∧ isWS c = true)) (collapseAux b l) := by
  intro l
  induction l with
  | nil => intro b; simp [collapseAux]
  | cons x xs ih =>
    intro b
    unfold collapseAux
    by_cases hx : isWS x = true
    · rw [if_pos hx]
      cases b with
      | true => simpa using ih true
      | false =>
        rw [if_neg (by simp)]
        rw [List.chain'_cons']
        refine ⟨?_, ih true⟩
        intro y hy
        cases hcc : collapseAux true xs with
        | nil => rw [hcc] at hy; cases hy
        | cons c cs =>
          rw [hcc] at hy
          simp only [List.head?_cons, Option.mem_some_iff] at hy
          intro hand
          have hf := collapseAux_true_head xs c cs hcc
          rw [← hy, hf] at hand
          exact Bool.false_ne_true hand.2
    · rw [if_neg hx]
      rw [List.chain'_cons']
      refine ⟨?_, ih false⟩
      intro y _ hand
      exact hx hand.1

theorem collapseAux_fix :
    ∀ (l : List Char),
      (∀ c ∈ l, c = ' ' ∨ isWS c = false) →
      List.Chain' (fun a c => ¬(isWS a = true ∧ isWS c = true)) l →
      collapseAux false l = l ∧
        ((∀ c cs, l = c :: cs → isWS c = false) → collapseAux true l = l) := by
  intro l
  induction l with
  | nil => intro _ _; exact ⟨rfl, fun _ => rfl⟩
  | cons x xs ih =>
    intro hmem hch
    rw [List.chain'_cons'] at hch
    have ihx := ih (fun c hc => hmem c (List.mem_cons_of_mem _ hc)) hch.2
    by_cases hx : isWS x = true
    · have hsp : x = ' ' := by
        rcases hmem x (List.mem_cons_self _ _) with h | h
        · exact h
        · rw [hx] at h; simp at h
      have htail : collapseAux true xs = xs := by
        apply ihx.2
        intro c cs hxs
        by_contra hc
        rw [Bool.not_eq_false] at hc
        exact hch.1 c (by rw [hxs]; simp) ⟨hx, hc⟩
      constructor
      · show collapseAux false (x :: xs) = x :: xs
        unfold collapseAux
        rw [if_pos hx]
        rw [if_neg (by simp)]
        rw [htail, hsp]
      · intro hhead
        have hcontra := hhead x xs rfl
        rw [hx] at hcontra
        simp at hcontra
    · constructor
      · show collapseAux false (x :: xs) = x :: xs
        unfold collapseAux
        rw [if_neg hx, ihx.1]
      · intro _
        show collapseAux true (x :: xs) = x :: xs
        unfold collapseAux
        rw [if_neg hx, ihx.1]

theorem dropWhile_head_false (p : Char → Bool) :
    ∀ (l : List Char) (c : Char) (cs : List Char),
      l.dropWhile p = c :: cs → p c = false := by
  intro l
  induction l with
  | nil => intro c cs h; cases h
  | cons x xs ih =>
    intro c cs h
    rw [List.dropWhile_cons] at h
    by_cases hx : p x = true
    · rw [if_pos hx] at h
      exact ih c cs h
    · rw [if_neg hx] at h
      cases h
      simpa using hx

theorem prefix_head? {α : Type} (l₁ l₂ : List α) (c : α) (cs : List α)
    (hp : l₁ <+: l₂) (he : l₁ = c :: cs) : l₂.head? = some c := by
  obtain ⟨t, rfl⟩ := hp
  rw [he]
  rfl

theorem mem_stripWS (p : List Char) (c : Char) (h : c ∈ stripWS p) : c ∈ p := by
  unfold stripWS at h
  rw [List.mem_reverse] at h
  have h1 : c ∈ (p.dropWhile isWS).reverse :=
    List.Sublist.mem h (List.IsSuffix.sublist (List.dropWhile_suffix isWS))
  rw [List.mem_reverse] at h1
  exact List.Sublist.mem h1 (List.IsSuffix.sublist (List.dropWhile_suffix isWS))

theorem chain'_stripWS {R : Char → Char → Prop} (p : List Char)
    (h : List.Chain' R p) : List.Chain' R (stripWS p) := by
  unfold stripWS
  have h1 : List.Chain' R (p.dropWhile isWS) :=
    List.Chain'.suffix h (List.dropWhile_suffix isWS)
  have h2 : List.Chain' (flip R) (p.dropWhile isWS).reverse := List.chain'_reverse.mpr h1
  have h3 : List.Chain' (flip R) ((p.dropWhile isWS).reverse.dropWhile isWS) :=
    List.Chain'.suffix h2 (List.dropWhile_suffix isWS)
  exact List.chain'_reverse.mpr h3

theorem stripWS_head (p : List Char) :
    ∀ c cs, stripWS p = c :: cs → isWS c = false := by
  intro c cs h
  have hpre : stripWS p <+: (p.dropWhile isWS).reverse.reverse :=
    List.reverse_prefix.mpr (List.dropWhile_suffix isWS)
  rw [List.reverse_reverse] at hpre
  have hh := prefix_head? _ _ _ _ hpre h
  cases hu : p.dropWhile isWS with
  | nil => rw [hu] at hh; cases hh
  | cons d ds =>
    rw [hu] at hh
    simp only [List.head?_cons, Option.some.injEq] at hh
    rw [← hh]
    exact dropWhile_head_false isWS p _ _ hu

theorem stripWS_last (p : List Char) :
    ∀ c, (stripWS p).getLast? = some c → isWS c = false := by
  intro c h
  unfold stripWS at h
  rw [List.getLast?_eq_head?_reverse, List.reverse_reverse] at h
  cases hu : (p.dropWhile isWS).reverse.dropWhile isWS with
  | nil => rw [hu] at h; cases h
  | cons d ds =>
    rw [hu] at h
    simp only [List.head?_cons, Option.some.injEq] at h
    rw [← h]
    exact dropWhile_head_false isWS _ _ _ hu

theorem normList_chars (l : List Char) :
    ∀ c ∈ normList l,
      isZW c = false ∧ c ≠ '_' ∧ c ≠ '-' ∧ (isWS c = true → c = ' ') := by
  intro c hc
  unfold normList at hc
  rcases List.mem_map.mp hc with ⟨b, hb, rfl⟩
  have hb1 := mem_stripWS _ _ hb
  have hspace := collapseAux_chars _ _ _ hb1
  have hws : isWS (lowerChar b) = true → lowerChar b = ' ' := by
    intro hwsl
    rcases hspace with rfl | hnb
    · decide
    · rw [isWS_lowerChar, hnb] at hwsl; simp at hwsl
  rcases mem_collapseAux _ _ _ hb1 with rfl | hb2
  · exact ⟨isZW_lowerChar ' ' (by decide),
      (dash_lowerChar ' ' (by decide) (by decide)).1,
      (dash_lowerChar ' ' (by decide) (by decide)).2, hws⟩
  · rcases List.mem_map.mp hb2 with ⟨a, ha, rfl⟩
    have haz : isZW a = false := by
      have := (List.mem_filter.mp ha).2
      simpa using this
    have hzw : isZW (dashUnd a) = false := by
      unfold dashUnd
      split
      · decide
      · exact haz
    exact ⟨isZW_lowerChar _ hzw,
      (dash_lowerChar _ (dashUnd_ne a).1 (dashUnd_ne a).2).1,
      (dash_lowerChar _ (dashUnd_ne a).1 (dashUnd_ne a).2).2, hws⟩

theorem normList_chain (l : List Char) :
    List.Chain' (fun a c => ¬(isWS a = true ∧ isWS c = true)) (normList l) := by
  unfold normList
  rw [List.chain'_map]
  exact List.Chain'.imp
    (fun a b hab => by rw [isWS_lowerChar a, isWS_lowerChar b]; exact hab)
    (chain'_stripWS _ (collapseAux_chain _ false))

theorem normList_head (l : List Char) :
    ∀ c cs, normList l = c :: cs → isWS c = false := by
  intro c cs h
  unfold normList at h
  cases hq : stripWS (collapseWS ((l.filter fun c => !isZW c).map dashUnd)) with
  | nil => rw [hq] at h; cases h
  | cons b bs =>
    rw [hq] at h
    simp only [List.map_cons, List.cons.injEq] at h
    rw [← h.1, isWS_lowerChar]
    exact stripWS_head _ _ _ hq

theorem normList_last (l : List Char) :
    ∀ c, (normList l).getLast? = some c → isWS c = false := by
  intro c h
  unfold normList at h
  rw [List.getLast?_map] at h
  cases hq : (stripWS (collapseWS ((l.filter fun c => !isZW c).map dashUnd))).getLast? with
  | none => rw [hq] at h; cases h
  | some b =>
    rw [hq] at h
    simp at h
    rw [← h, isWS_lowerChar]
    exact stripWS_last _ _ hq

theorem normList_idem (l : List Char) : normList (normList l) = normList l := by
  have hchars := normList_chars l
  have hfilter : (normList l).filter (fun c => !isZW c) = normList l := by
    rw [List.filter_eq_self]
    intro a ha
    rw [(hchars a ha).1]
    rfl
  have hdash : (normList l).map dashUnd = normList l := by
    have heq : (normList l).map dashUnd = (normList l).map id :=
      List.map_congr_left (fun a ha => by
        unfold dashUnd
        rw [if_neg]
        · rfl
        · simp only [Bool.or_eq_true, decide_eq_true_eq, not_or]
          exact ⟨(hchars a ha).2.1, (hchars a ha).2.2.1⟩)
    rw [heq, List.map_id]
  have hcollapse : collapseWS (normList l) = normList l := by
    unfold collapseWS
    exact (collapseAux_fix (normList l)
      (fun c hc => by
        by_cases hws : isWS c = true
        · exact Or.inl ((hchars c hc).2.2.2 hws)
        · exact Or.inr (by simpa using hws))
      (normList_chain l)).1
  have hstrip : stripWS (normList l) = normList l := by
    unfold stripWS
    have h1 : (normList l).dropWhile isWS = normList l := by
      cases hn : normList l with
      | nil => rfl
      | cons c cs =>
        rw [List.dropWhile_cons, if_neg (by simp [normList_head l c cs hn])]
    rw [h1]
    have h2 : (normList l).reverse.dropWhile isWS = (normList l).reverse := by
      cases hr : (normList l).reverse with
      | nil => rfl
      | cons c cs =>
        have hlast : (normList l).getLast? = some c := by
          rw [List.getLast?_eq_head?_reverse, hr]; rfl
        rw [List.dropWhile_cons, if_neg (by simp [normList_last l c hlast])]
    rw [h2, List.reverse_reverse]
  have hlower : (normList l).map lowerChar = normList l := by
    have heq : (normList l).map lowerChar = (normList l).map id :=
      List.map_congr_left (fun a ha => lowerChar_mem_normList l a ha)
    rw [heq, List.map_id]
  show (stripWS (collapseWS (((normList l).filter fun c => !isZW c).map dashUnd))).map lowerChar
      = normList l
  rw [hfilter, hdash, hcollapse, hstrip, hlower]

theorem normLabel_idem (s : String) : normLabel (normLabel s) = normLabel s := by
  show (normList (normList s.toList)).asString = (normList s.toList).asString
  rw [normList_idem]


/-!
## Claim C8, stage 2: the full pipeline on canonical / already-normalized input
-/

theorem canon_normFixed : ∀ n ∈ CANON_KEYS, normLabel n = n := by decide

theorem display_norm : ∀ q ∈ DISPLAY_MAP, normLabel q.2 = q.1 := by decide

theorem req_sub_canon : ∀ k ∈ REQUIRED_WORKING, k ∈ CANON_KEYS := by decide

theorem DF.ext' (a b : DF) (h1 : a.nrows = b.nrows) (h2 : a.cols = b.cols) : a = b := by
  cases a; cases b
  simp only at h1 h2
  rw [h1, h2]

theorem rename_nil (d : DF) : d.rename [] = d := by
  apply DF.ext'
  · rfl
  · show d.cols.map (fun p => (renameFn [] p.1, p.2)) = d.cols
    have h : ∀ p ∈ d.cols, (fun p => ((renameFn [] p.1 : String), p.2)) p = id p := by
      intro p _
      show ((([] : List (String × String)).lookup p.1).getD p.1, p.2) = p
      rfl
    rw [List.map_congr_left h, List.map_id]

theorem ensure_fold_noop (L : List String) :
    ∀ d : DF, (∀ c ∈ L, d.hasCol c) →
      L.foldl (fun d c =>
        if d.hasCol c then d else d.setCol c (List.replicate d.nrows .na)) d = d := by
  induction L with
  | nil => intro d _; rfl
  | cons a t ih =>
    intro d h
    rw [List.foldl_cons, if_pos (h a (List.mem_cons_self _ _))]
    exact ih d (fun c hc => h c (List.mem_cons_of_mem _ hc))

theorem nhStep2_noop (d : DF) (hcanon : ∀ k ∈ CANON_KEYS, d.hasCol k) :
    nhStep2 d = d := by
  unfold nhStep2
  rw [brm_eq_nil ALIAS_TABLE d.colNames
    (fun q hq => hcanon q.1 (List.mem_map_of_mem Prod.fst hq))]
  exact rename_nil d

theorem nhStep3_noop (d : DF) (hreq : ∀ k ∈ REQUIRED_WORKING, d.hasCol k) :
    nhStep3 d = d := ensure_fold_noop REQUIRED_WORKING d hreq

theorem nhStep4b_noop (d : DF) (h : d.hasCol "totalcostusd") : nhStep4b d = d := by
  unfold nhStep4b
  rw [if_pos h]

theorem canon_present1 (df : DF) (hdisp : ∀ D ∈ DISPLAY_NAMES, df.hasCol D) :
    ∀ k ∈ CANON_KEYS, (nhStep1 df).hasCol k := by
  intro k hk
  have hmem : k ∈ DISPLAY_MAP.map Prod.fst := by rw [display_fst_canon]; exact hk
  rw [List.mem_map] at hmem
  obtain ⟨q, hq, hq1⟩ := hmem
  have hD : df.hasCol q.2 := hdisp q.2 (List.mem_map_of_mem Prod.snd hq)
  show k ∈ (nhStep1 df).colNames
  rw [colNames_nhStep1, ← hq1, ← display_norm q hq]
  exact List.mem_map_of_mem normLabel hD

theorem nh_colNames_display (df : DF) (hset : df.colNames.Perm DISPLAY_NAMES) :
    (normalize_headers df).colNames = df.colNames := by
  have hdisp : ∀ D ∈ DISPLAY_NAMES, df.hasCol D := fun D hD => hset.mem_iff.mpr hD
  have hsub : ∀ n ∈ df.colNames, n ∈ DISPLAY_NAMES := fun n hn => hset.mem_iff.mp hn
  have hcanon := canon_present1 df hdisp
  have e2 : nhStep2 (nhStep1 df) = nhStep1 df := nhStep2_noop _ hcanon
  have e3 : nhStep3 (nhStep1 df) = nhStep1 df :=
    nhStep3_noop _ (fun k hk => hcanon k (req_sub_canon k hk))
  have h4btot : (nhStep4a (nhStep1 df)).hasCol "totalcostusd" :=
    hasCol_nhStep4a _ _ (hcanon "totalcostusd" (by decide))
  unfold normalize_headers
  rw [e2, e3, nhStep4b_noop _ h4btot]
  unfold nhStep5
  rw [DF.colNames_rename, colNames_nhStep4a, colNames_nhStep1, List.map_map]
  have h : ∀ n ∈ df.colNames, (renameFn DISPLAY_MAP ∘ normLabel) n = id n := by
    intro n hn
    have hnD := hsub n hn
    rw [DISPLAY_NAMES, List.mem_map] at hnD
    obtain ⟨q, hq, hq2⟩ := hnD
    show renameFn DISPLAY_MAP (normLabel n) = n
    rw [← hq2, display_norm q hq, display_renameFn q hq]
  rw [List.map_congr_left h, List.map_id]


theorem DF.cols_rename (df : DF) (m : List (String × String)) :
    (df.rename m).cols = df.cols.map (fun p => (renameFn m p.1, p.2)) := rfl

theorem renameFn_brm_normFixed (present : List String) (n : String)
    (hn : normLabel n = n) :
    normLabel (renameFn (brm ALIAS_TABLE present) n) = renameFn (brm ALIAS_TABLE present) n := by
  cases hl : (brm ALIAS_TABLE present).lookup n with
  | none => rw [renameFn_eq_self _ _ hl]; exact hn
  | some v =>
    have hv : renameFn (brm ALIAS_TABLE present) n = v := by simp [renameFn, hl]
    rw [hv]
    obtain ⟨q, hq, hveq, _⟩ := brm_mem ALIAS_TABLE present (n, v) (lookup_mem_pair _ _ _ hl)
    apply canon_normFixed v
    rw [show v = q.1 from hveq]
    exact List.mem_map_of_mem Prod.fst hq

theorem names_step2_normFixed (df : DF) :
    ∀ n ∈ (nhStep2 (nhStep1 df)).colNames, normLabel n = n := by
  intro n hn
  rw [nhStep2, DF.colNames_rename, colNames_nhStep1] at hn
  rw [List.mem_map] at hn
  obtain ⟨n0, hn0, rfl⟩ := hn
  rw [List.mem_map] at hn0
  obtain ⟨c0, _, rfl⟩ := hn0
  exact renameFn_brm_normFixed _ _ (normLabel_idem c0)

theorem names_A_normFixed (df : DF) :
    ∀ n ∈ (nhStep4a (nhStep3 (nhStep2 (nhStep1 df)))).colNames, normLabel n = n := by
  intro n hn
  rw [colNames_nhStep4a] at hn
  rcases names_ensure_fold_sub REQUIRED_WORKING _ n hn with h | h
  · exact names_step2_normFixed df n h
  · exact canon_normFixed n (req_sub_canon n h)

theorem names_E4b_normFixed (df : DF) :
    ∀ n ∈ (nhStep4b (nhStep4a (nhStep3 (nhStep2 (nhStep1 df))))).colNames,
      normLabel n = n := by
  intro n hn
  unfold nhStep4b at hn
  split at hn
  · exact names_A_normFixed df n hn
  case isFalse habs =>
    have h2 : n ∈ ((nhStep4a (nhStep3 (nhStep2 (nhStep1 df)))).setCol "totalcostusd"
        ((List.range (nhStep4a (nhStep3 (nhStep2 (nhStep1 df)))).nrows).map (fun i =>
          cellAdd
            (cellMul (cellAt ((nhStep4a (nhStep3 (nhStep2 (nhStep1 df)))).getCol "quantity") i)
              (cellAt ((nhStep4a (nhStep3 (nhStep2 (nhStep1 df)))).getCol "cost per coin (usd)") i))
            (cellAt ((nhStep4a (nhStep3 (nhStep2 (nhStep1 df)))).getCol "feesusd") i)))).colNames := hn
    rw [DF.colNames_setCol_absent _ _ _ habs] at h2
    rcases List.mem_append.mp h2 with h | h
    · exact names_A_normFixed df n h
    · simp only [List.mem_singleton] at h
      subst h
      decide

theorem cols_coerce_fold :
    ∀ (L : List String), L.Nodup → ∀ (d : DF),
      (L.foldl (fun dd c => dd.mapCol c toNumericCell) d).cols =
        d.cols.map (fun p => if p.1 ∈ L then (p.1, p.2.map toNumericCell) else p) := by
  intro L
  induction L with
  | nil => intro _ d; simp
  | cons a t ih =>
    intro hnd d
    rw [List.foldl_cons, ih (List.Nodup.of_cons hnd) (d.mapCol a toNumericCell)]
    show (d.cols.map (fun p => if p.1 = a then (p.1, p.2.map toNumericCell) else p)).map
        (fun p => if p.1 ∈ t then (p.1, p.2.map toNumericCell) else p)
      = d.cols.map (fun p => if p.1 ∈ a :: t then (p.1, p.2.map toNumericCell) else p)
    rw [List.map_map]
    apply List.map_congr_left
    intro p _
    by_cases hpa : p.1 = a
    · have hpt : ¬ p.1 ∈ t := fun h => (List.nodup_cons.mp hnd).1 (hpa ▸ h)
      simp only [Function.comp_apply]
      rw [if_pos hpa]
      show (if p.1 ∈ t then ((p.1 : String), (p.2.map toNumericCell).map toNumericCell)
          else (p.1, p.2.map toNumericCell))
        = if p.1 ∈ a :: t then (p.1, p.2.map toNumericCell) else p
      rw [if_neg hpt,
        if_pos (show p.1 ∈ a :: t by rw [hpa]; exact List.mem_cons_self a t)]
    · by_cases hpt : p.1 ∈ t <;> simp [Function.comp, hpa, hpt, List.mem_cons]

theorem cells_A_coerced (df : DF) :
    ∀ p ∈ (nhStep4a (nhStep3 (nhStep2 (nhStep1 df)))).cols,
      p.1 ∈ NUMERIC_WORKING → ∀ c ∈ p.2, toNumericCell c = c := by
  intro p hp hnum c hc
  unfold nhStep4a at hp
  rw [cols_coerce_fold NUMERIC_WORKING (by decide) _] at hp
  rw [List.mem_map] at hp
  obtain ⟨q, hq, hpe⟩ := hp
  by_cases hqn : q.1 ∈ NUMERIC_WORKING
  · rw [if_pos hqn] at hpe
    rw [← hpe] at hc
    rcases List.mem_map.mp hc with ⟨a, _, rfl⟩
    exact toNumericCell_idem a
  · rw [if_neg hqn] at hpe
    rw [← hpe] at hnum
    exact absurd hnum hqn

theorem cells_E4b_coerced (df : DF) :
    ∀ p ∈ (nhStep4b (nhStep4a (nhStep3 (nhStep2 (nhStep1 df))))).cols,
      p.1 ∈ NUMERIC_WORKING → ∀ c ∈ p.2, toNumericCell c = c := by
  intro p hp hnum c hc
  unfold nhStep4b at hp
  split at hp
  · exact cells_A_coerced df p hp hnum c hc
  case isFalse habs =>
    rw [DF.setCol, if_neg habs] at hp
    rcases List.mem_append.mp hp with h | h
    · exact cells_A_coerced df p h hnum c hc
    · simp only [List.mem_singleton] at h
      have hp1 : p.1 = "totalcostusd" := by rw [h]
      rw [hp1] at hnum
      exact absurd hnum (by decide)

theorem nh_cols_shape (df : DF) :
    ∀ p ∈ (normalize_headers df).cols,
      ∃ m cs, (m, cs) ∈ (nhStep4b (nhStep4a (nhStep3 (nhStep2 (nhStep1 df))))).cols
        ∧ p = (renameFn DISPLAY_MAP m, cs) := by
  intro p hp
  unfold normalize_headers nhStep5 at hp
  rw [DF.cols_rename] at hp
  rw [List.mem_map] at hp
  obtain ⟨q, hq, hqe⟩ := hp
  exact ⟨q.1, q.2, hq, hqe.symm⟩

theorem normLabel_renameFn_display (m : String) (hm : normLabel m = m) :
    normLabel (renameFn DISPLAY_MAP m) = m := by
  by_cases hc : isCanon m
  · have hmem : m ∈ DISPLAY_MAP.map Prod.fst := by rw [display_fst_canon]; exact hc
    rw [List.mem_map] at hmem
    obtain ⟨q, hq, hq1⟩ := hmem
    rw [← hq1, display_renameFn q hq]
    exact display_norm q hq
  · rw [renameFn_display_not_canon m hc]
    exact hm

theorem nh_names_classified (df : DF) :
    ∀ p ∈ (normalize_headers df).cols,
      p.1 ∈ DISPLAY_NAMES ∨ (normLabel p.1 = p.1 ∧ ¬ isCanon p.1) := by
  intro p hp
  obtain ⟨m, cs, hm, rfl⟩ := nh_cols_shape df p hp
  have hmf : normLabel m = m :=
    names_E4b_normFixed df m (List.mem_map_of_mem Prod.fst hm)
  by_cases hc : isCanon m
  · left
    have hmem : m ∈ DISPLAY_MAP.map Prod.fst := by rw [display_fst_canon]; exact hc
    rw [List.mem_map] at hmem
    obtain ⟨q, hq, hq1⟩ := hmem
    show renameFn DISPLAY_MAP m ∈ DISPLAY_NAMES
    rw [← hq1, display_renameFn q hq]
    exact List.mem_map_of_mem Prod.snd hq
  · right
    show normLabel (renameFn DISPLAY_MAP m) = renameFn DISPLAY_MAP m
      ∧ ¬ isCanon (renameFn DISPLAY_MAP m)
    rw [renameFn_display_not_canon m hc]
    exact ⟨hmf, hc⟩

theorem nh_display_present (df : DF) :
    ∀ D ∈ DISPLAY_NAMES, (normalize_headers df).hasCol D := by
  intro D hD
  rw [DISPLAY_NAMES, List.mem_map] at hD
  obtain ⟨q, hq, rfl⟩ := hD
  have hsplit : CANON_KEYS = REQUIRED_WORKING ++ ["totalcostusd"] := by decide
  have hcanon : q.1 ∈ CANON_KEYS := by
    rw [← display_fst_canon]
    exact List.mem_map_of_mem Prod.fst hq
  have hk : (nhStep4b (nhStep4a (nhStep3 (nhStep2 (nhStep1 df))))).hasCol q.1 := by
    rw [hsplit] at hcanon
    rcases List.mem_append.mp hcanon with hreq | htot
    · exact hasCol_nhStep4b_of _ _ (hasCol_nhStep4a _ _ (hasCol_nhStep3_req _ _ hreq))
    · simp only [List.mem_singleton] at htot
      rw [htot]
      exact hasCol_nhStep4b_total _
  show q.2 ∈ (normalize_headers df).colNames
  rw [show (normalize_headers df).colNames
      = (nhStep4b (nhStep4a (nhStep3 (nhStep2 (nhStep1 df))))).colNames.map
          (renameFn DISPLAY_MAP) from DF.colNames_rename _ _]
  rw [← display_renameFn q hq]
  exact List.mem_map_of_mem _ hk

theorem nhStep4a_noop (d : DF)
    (hc : ∀ p ∈ d.cols, p.1 ∈ NUMERIC_WORKING → ∀ c ∈ p.2, toNumericCell c = c) :
    nhStep4a d = d := by
  apply DF.ext'
  · show (nhStep4a d).nrows = d.nrows
    simp only [nhStep4a, NUMERIC_WORKING, List.foldl_cons, List.foldl_nil, DF.nrows_mapCol]
  · show (nhStep4a d).cols = d.cols
    rw [show nhStep4a d
        = NUMERIC_WORKING.foldl (fun dd c => dd.mapCol c toNumericCell) d from rfl]
    rw [cols_coerce_fold NUMERIC_WORKING (by decide) d]
    have h : ∀ p ∈ d.cols,
        (fun p => if p.1 ∈ NUMERIC_WORKING then ((p.1 : String), p.2.map toNumericCell) else p) p
          = id p := by
      intro p hp
      by_cases hnum : p.1 ∈ NUMERIC_WORKING
      · show (if p.1 ∈ NUMERIC_WORKING then (p.1, p.2.map toNumericCell) else p) = p
        rw [if_pos hnum]
        have hcs : p.2.map toNumericCell = p.2 := by
          rw [List.map_congr_left (fun c hcc => hc p hp hnum c hcc)]
          simp
        rw [hcs]
      · show (if p.1 ∈ NUMERIC_WORKING then (p.1, p.2.map toNumericCell) else p) = p
        rw [if_neg hnum]
    rw [List.map_congr_left h, List.map_id]

theorem nh_fix (df : DF)
    (hclass : ∀ p ∈ df.cols, p.1 ∈ DISPLAY_NAMES ∨ (normLabel p.1 = p.1 ∧ ¬ isCanon p.1))
    (hcells : ∀ p ∈ df.cols, normLabel p.1 ∈ NUMERIC_WORKING → ∀ c ∈ p.2, toNumericCell c = c)
    (hdisp : ∀ D ∈ DISPLAY_NAMES, df.hasCol D) :
    normalize_headers df = df := by
  have hcanon := canon_present1 df hdisp
  have e2 : nhStep2 (nhStep1 df) = nhStep1 df := nhStep2_noop _ hcanon
  have e3 : nhStep3 (nhStep1 df) = nhStep1 df :=
    nhStep3_noop _ (fun k hk => hcanon k (req_sub_canon k hk))
  have e4a : nhStep4a (nhStep1 df) = nhStep1 df := by
    apply nhStep4a_noop
    intro p hp hnum c hcc
    rw [show (nhStep1 df).cols = df.cols.map (fun q => ((normLabel q.1 : String), q.2))
        from rfl] at hp
    rw [List.mem_map] at hp
    obtain ⟨q, hq, rfl⟩ := hp
    exact hcells q hq hnum c hcc
  have e4b : nhStep4b (nhStep1 df) = nhStep1 df :=
    nhStep4b_noop _ (hcanon "totalcostusd" (by decide))
  have e5 : nhStep5 (nhStep1 df) = df := by
    apply DF.ext'
    · rfl
    · show (df.cols.map (fun p => ((normLabel p.1 : String), p.2))).map
          (fun p => (renameFn DISPLAY_MAP p.1, p.2)) = df.cols
      rw [List.map_map]
      have h : ∀ p ∈ df.cols,
          ((fun p => ((renameFn DISPLAY_MAP p.1 : String), p.2))
            ∘ (fun p => ((normLabel p.1 : String), p.2))) p = id p := by
        intro p hp
        show (renameFn DISPLAY_MAP (normLabel p.1), p.2) = p
        rcases hclass p hp with hD | ⟨hfix, hnc⟩
        · rw [DISPLAY_NAMES, List.mem_map] at hD
          obtain ⟨q, hq, hq2⟩ := hD
          rw [← hq2, display_norm q hq, display_renameFn q hq, hq2]
        · rw [hfix, renameFn_display_not_canon p.1 hnc]
      rw [List.map_congr_left h, List.map_id]
  unfold normalize_headers
  rw [e2, e3, e4a, e4b, e5]


/-- C8: the Header Normalizer is idempotent.  (a) A frame whose header set
is exactly the canonical display names keeps its header list unchanged;
(b) on any frame whose normalized labels are pairwise distinct (the domain
on which the source's per-column numeric coercion is defined), applying
`normalize_headers` twice equals applying it once. -/
theorem claim8_idempotent (df : DF)
    (_hnodup : (df.colNames.map normLabel).Nodup) :
    (df.colNames.Perm DISPLAY_NAMES → (normalize_headers df).colNames = df.colNames)
    ∧ normalize_headers (normalize_headers df) = normalize_headers df := by
  constructor
  · exact nh_colNames_display df
  · refine nh_fix (normalize_headers df) (nh_names_classified df) ?_ (nh_display_present df)
    intro p hp hnum c hcc
    obtain ⟨m, cs, hm, rfl⟩ := nh_cols_shape df p hp
    have hmf : normLabel m = m :=
      names_E4b_normFixed df m (List.mem_map_of_mem Prod.fst hm)
    have hnum2 : normLabel (renameFn DISPLAY_MAP m) ∈ NUMERIC_WORKING := hnum
    rw [normLabel_renameFn_display m hmf] at hnum2
    exact cells_E4b_coerced df (m, cs) hm hnum2 c hcc

theorem claim8_idempotent_witness :
    ((witC8df.colNames.map normLabel).Nodup
      ∧ witC8df.colNames.Perm DISPLAY_NAMES
      ∧ (normalize_headers witC8df).colNames = witC8df.colNames)
    ∧ normalize_headers (normalize_headers witC8df) = normalize_headers witC8df :=
  ⟨⟨by decide, by decide,
    (claim8_idempotent witC8df (by decide)).1 (by decide)⟩,
   (claim8_idempotent witC8df (by decide)).2⟩

end Crypto
